import Mathlib

/-!
Verification of the text-buffer core of the `commit-editor` repository
(`src/commit_editor/app.py`): the line wrapper `wrap_line`, the buffer
auto-wrap `CommitTextArea.wrap_current_body_line`, and the trailer toggle
`CommitEditorApp.action_toggle_signoff`, together with the identity
provider `git.get_signed_off_by`.

Python strings are embedded as `List Char`; `str.split(sep)` becomes
`splitChar`, `sep.join` becomes `joinWith`, `str.strip()` becomes
`pyStrip`, and Python truthiness of a string is emptiness.
-/

namespace CommitEditor

/-- A Python string, embedded as its list of characters. -/
abbrev Str := List Char

/-- Python's whitespace class (CPython `_PyUnicode_IsWhitespace`, the
class used by `str.strip()` and `str.isspace()`): the control range
0x09-0x0D, 0x1C-0x1F, the space, NEL (0x85), NBSP (0xA0), and the
Unicode space separators. -/
def isWS (c : Char) : Bool :=
  (0x09 ≤ c.toNat && c.toNat ≤ 0x0d) || c.toNat = 0x20 ||
    (0x1c ≤ c.toNat && c.toNat ≤ 0x1f) || c.toNat = 0x85 || c.toNat = 0xa0 ||
    c.toNat = 0x1680 || (0x2000 ≤ c.toNat && c.toNat ≤ 0x200a) ||
    c.toNat = 0x2028 || c.toNat = 0x2029 || c.toNat = 0x202f ||
    c.toNat = 0x205f || c.toNat = 0x3000

/-- Leading-whitespace strip (left half of Python `str.strip()`). -/
def stripLeft (s : Str) : Str := s.dropWhile isWS

/-- Trailing-whitespace strip (right half of Python `str.strip()`). -/
def stripRight (s : Str) : Str := (s.reverse.dropWhile isWS).reverse

/-- Python `str.strip()`: remove leading and trailing whitespace. -/
def pyStrip (s : Str) : Str := stripRight (stripLeft s)

/-- Python `s.split(sep)` for a single-character separator `sep`:
splits at every occurrence, keeping empty pieces between adjacent
separators and at the ends. -/
def splitChar (sep : Char) : Str → List Str
  | [] => [[]]
  | c :: rest =>
    match splitChar sep rest with
    | [] => [[]]
    | w :: ws => if c = sep then [] :: w :: ws else (c :: w) :: ws

/-- Python `sep.join(pieces)` for a single-character separator. -/
def joinWith (sep : Char) : List Str → Str
  | [] => []
  | [x] => x
  | x :: xs => x ++ sep :: joinWith sep xs

/-- Python `line.startswith(p)`. -/
def startsWith : Str → Str → Bool
  | [], _ => true
  | _ :: _, [] => false
  | p :: ps, c :: cs => p = c && startsWith ps cs

/-- Python `not line.strip()`: the line is empty or all whitespace. -/
def isBlank (l : Str) : Bool := (pyStrip l).isEmpty

/-! ## The line wrapper (`wrap_line`, app.py lines 18-57) -/

/-- One iteration of the `for word in words` loop of `wrap_line`
(app.py lines 38-52), acting on the state `(lines, current_line)`. -/
def wrapStep (width : Nat) (st : List Str × Str) (word : Str) : List Str × Str :=
  let lines := st.1
  let current := st.2
  if word = [] then
    -- handle multiple spaces
    if current = [] then (lines, current) else (lines, current ++ [' '])
  else
    let test := if current = [] then word else pyStrip (current ++ ' ' :: word)
    if test.length ≤ width then (lines, test)
    else if current = [] then (lines, word)
    else (lines ++ [current], word)

/-- The whole `for` loop of `wrap_line`, starting from `lines = []`,
`current_line = ""`. -/
def wrapFold (width : Nat) (words : List Str) : List Str × Str :=
  words.foldl (wrapStep width) ([], [])

/-- Append the final `current_line` if non-empty (app.py lines 54-55). -/
def outFinal (p : List Str × Str) : List Str :=
  if p.2 = [] then p.1 else p.1 ++ [p.2]

/-- The word-packing core of `wrap_line` on an already-split word list. -/
def wrapCore (width : Nat) (words : List Str) : List Str :=
  outFinal (wrapFold width words)

/-- `wrap_line(line, width)` from app.py lines 18-57. -/
def wrap_line (line : Str) (width : Nat) : List Str :=
  if line = [] then [[]]
  else if line.length ≤ width then [line]
  else
    let lines := wrapCore width (splitChar ' ' line)
    if lines = [] then [[]] else lines

/-- `BODY_MAX_LENGTH` from app.py line 15. -/
def BODY_MAX_LENGTH : Nat := 72

/-! ## Trace checks of `wrap_line` against the repository's test-suite
examples and further hand-traced runs of the Python code. -/

example : wrap_line ("This is a short line".toList) 72 = [("This is a short line".toList)] := by
  decide

example : wrap_line [] 72 = [[]] := by decide

example : wrap_line (List.replicate 100 'a') 72 = [List.replicate 100 'a'] := by decide

example :
    wrap_line ("The quick brown fox jumps over the lazy dog and continues running".toList) 40 =
      [("The quick brown fox jumps over the lazy".toList), ("dog and continues running".toList)] := by
  decide

-- space runs are preserved, not collapsed
example : wrap_line ("aa  bb cccc".toList) 6 = [("aa  bb".toList), ("cccc".toList)] := by decide

-- a trailing space survives onto the rebuilt line, exceeding the width
example : wrap_line ("aa b ".toList) 4 = [("aa b ".toList)] := by decide

-- a leading run of tabs is eaten by str.strip() inside the loop
example : wrap_line (List.replicate 73 '\t' ++ [' ', 'b']) 72 = [['b']] := by decide

-- the tab-induced wrap/rewrap divergence
example : wrap_line ("pppp \tab x".toList) 7 = [("pppp".toList), ("ab x".toList)] := by decide

-- the vertical tab is Python whitespace: str.strip() removes it, so
-- the same divergence happens with \x0b in place of \t
example : isWS '\x0b' = true := by decide

example : wrap_line ("pppp \x0bab x".toList) 7 = [("pppp".toList), ("ab x".toList)] := by decide

example :
    wrap_line (joinWith ' ' (wrap_line ("pppp \x0bab x".toList) 7)) 7 ≠
      wrap_line ("pppp \x0bab x".toList) 7 := by
  decide

-- a word of vertical tabs is swallowed entirely, like the tab word
example : pyStrip (List.replicate 73 '\x0b') = [] := by decide

example : wrap_line (List.replicate 73 '\x0b' ++ [' ', 'b']) 72 = [['b']] := by decide


example : wrap_line ("pppp ab x".toList) 7 = [("pppp ab".toList), (['x'])] := by decide

-- an over-long word keeps a trailing space attached when flushed
example :
    wrap_line (List.replicate 100 'X' ++ [' ', ' ', 'b']) 72 =
      [List.replicate 100 'X' ++ [' '], ['b']] := by
  decide

/-! ## The buffer auto-wrap (`wrap_current_body_line`, app.py lines 132-168)

The operation reads the editor's text and cursor and produces the new
text and cursor. -/

/-- `CommitTextArea.wrap_current_body_line` from app.py lines 132-168:
given the buffer text and the `(row, col)` cursor, either a no-op or a
single-line rewrap with cursor relocation. -/
def wrap_current_body_line (text : Str) (cursor : Nat × Nat) : Str × (Nat × Nat) :=
  let row := cursor.1
  let col := cursor.2
  let lines := splitChar '\n' text
  -- only wrap body lines (index 2+)
  if row < 2 ∨ lines.length ≤ row then (text, cursor)
  else
    let current := lines.getD row []
    -- only wrap if the line exceeds the limit
    if current.length ≤ BODY_MAX_LENGTH then (text, cursor)
    else
      let wrapped := wrap_line current BODY_MAX_LENGTH
      if wrapped.length ≤ 1 then (text, cursor)
      else
        -- lines[cursor_row:cursor_row+1] = wrapped
        let newLines := lines.take row ++ wrapped ++ lines.drop (row + 1)
        let newText := joinWith '\n' newLines
        let w0 := wrapped.getD 0 []
        if w0.length < col then
          -- -1 for the space that became a newline, clamped into the next row
          let newCol := min (col - w0.length - 1) (wrapped.getD 1 []).length
          (newText, (row + 1, newCol))
        else
          (newText, (row, col))

/-! ## The identity provider (`git.get_signed_off_by`, git.py lines 33-39)

`get_user_name` / `get_user_email` yield `none` or a non-empty stripped
string; `get_signed_off_by` formats them when both are truthy. -/

/-- Python truthiness of an optional string. -/
def truthy : Option Str → Bool
  | none => false
  | some s => !s.isEmpty

/-- `git.get_signed_off_by` from git.py lines 33-39, taking the results
of `get_user_name()` and `get_user_email()` as inputs. -/
def get_signed_off_by (name email : Option Str) : Option Str :=
  if truthy name ∧ truthy email then
    some ("Signed-off-by: ".toList ++ name.getD [] ++ " <".toList ++ email.getD [] ++ ['>'])
  else
    none

/-! ## The trailer toggle (`action_toggle_signoff`, app.py lines 417-487) -/

/-- The literal prefix `"Signed-off-by:"` tested by
`line.startswith("Signed-off-by:")` (app.py line 449). -/
def signoffMarker : Str := "Signed-off-by:".toList

/-- App.py lines 429-433: index of the first line starting with `#`,
or the number of lines if there is none. -/
def commentStartIndex : List Str → Nat
  | [] => 0
  | l :: rest => if startsWith ['#'] l then 0 else commentStartIndex rest + 1

/-- The content region: lines before the first `#` line. -/
def contentOf (lines : List Str) : List Str := lines.take (commentStartIndex lines)

/-- The comment region: the first `#` line and everything after it. -/
def commentsOf (lines : List Str) : List Str := lines.drop (commentStartIndex lines)

/-- App.py lines 440-441 and 461-462: `while` loop popping trailing
blank lines. -/
def dropTrailingBlanks (ls : List Str) : List Str :=
  (ls.reverse.dropWhile isBlank).reverse

/-- App.py lines 447-455, on the reversed content: scan from the last
line; delete the first line starting with `Signed-off-by:`; stop without
a match at the first non-blank line that is neither a comment nor a
trailer.  Returns the reversed content without the deleted line, or
`none` when no trailer was found. -/
def removeSignoffRev : List Str → Option (List Str)
  | [] => none
  | l :: rest =>
    if startsWith signoffMarker l then some rest
    else if ¬ isBlank l ∧ ¬ startsWith ['#'] l then none
    else (removeSignoffRev rest).map (l :: ·)

/-- App.py lines 439-467: trim trailing blanks, then either remove the
found trailer (and re-trim), or append a separating blank line (when the
last content line is non-blank) followed by the trailer. -/
def toggledContent (content : List Str) (signoff : Str) : List Str :=
  let content := dropTrailingBlanks content
  match removeSignoffRev content.reverse with
  | some rev => dropTrailingBlanks rev.reverse
  | none =>
    if ¬ isBlank (content.getLastD []) then content ++ [[], signoff]
    else content ++ [signoff]

/-- App.py lines 428-467 on the split line list: split off the comment
block and transform the content. -/
def toggleLines (lines : List Str) (signoff : Str) : List Str × List Str :=
  (toggledContent (contentOf lines) signoff, commentsOf lines)

/-- App.py lines 420-474: the full text-to-text transform of a
successful toggle (reassembly at lines 469-474). -/
def toggleText (text : Str) (signoff : Str) : Str :=
  let lines := splitChar '\n' text
  let p := toggleLines lines signoff
  if p.2 ≠ [] then
    joinWith '\n' p.1 ++ '\n' :: '\n' :: joinWith '\n' p.2
  else
    joinWith '\n' p.1

/-- App.py lines 479-485: best-effort cursor restoration against the
new text (row clamped to the new line count, column to the row length). -/
def toggleCursor (newText : Str) (cursor : Nat × Nat) : Nat × Nat :=
  let newLines := splitChar '\n' newText
  let maxRow := newLines.length - 1
  let newRow := min cursor.1 maxRow
  let maxCol := (newLines.getD newRow []).length
  (newRow, min cursor.2 maxCol)

/-- `CommitEditorApp.action_toggle_signoff` (app.py lines 417-487):
given the buffer text, cursor, and the identity provider's answer,
return the new `(text, cursor)` state together with the error message
shown when the identity is unavailable (`if not signoff`, lines
424-426); on that failure the state is returned untouched. -/
def action_toggle_signoff (text : Str) (cursor : Nat × Nat) (signoff : Option Str) :
    (Str × (Nat × Nat)) × Option Str :=
  if truthy signoff then
    let s := signoff.getD []
    let newText := toggleText text s
    ((newText, toggleCursor newText cursor), none)
  else
    ((text, cursor), some ("Git user not configured".toList))

/-! ## Trace checks of the toggle against the repository's test-suite
examples and hand-traced runs. -/

-- adding a sign-off to a plain message
example :
    toggleText ("Test commit".toList) ("Signed-off-by: Test User <test@example.com>".toList) =
      ("Test commit\n\nSigned-off-by: Test User <test@example.com>".toList) := by
  decide

-- removing an existing sign-off
example :
    toggleText ("Commit message\n\nBody text\n\nSigned-off-by: T <t@e>".toList)
        ("Signed-off-by: T <t@e>".toList) =
      ("Commit message\n\nBody text".toList) := by
  decide

-- inserting before a comment block, normalizing to one blank line
example :
    toggleText ("Subject\n\nBody text\n\n# comment".toList) ("Signed-off-by: A <a@b.com>".toList) =
      ("Subject\n\nBody text\n\nSigned-off-by: A <a@b.com>\n\n# comment".toList) := by
  decide

-- removal matches by prefix only, regardless of the configured identity
example :
    toggleText ("Subject\n\nSigned-off-by: X <x@y>\n\n# c".toList)
        ("Signed-off-by: B <c@d>".toList) =
      ("Subject\n\n# c".toList) := by
  decide

-- a line of \x0b is blank for the toggle's trailing-blank trim, so a
-- document ending in it still counts as ending in its trailer line
example : isBlank ("\x0b".toList) = true := by decide

example :
    dropTrailingBlanks (contentOf (splitChar '\n' ("Subject\nSigned-off-by: X\n\x0b".toList))) =
      [("Subject".toList), ("Signed-off-by: X".toList)] := by
  decide

-- double toggle with a trailer different from the document's one
example :
    toggleText (toggleText ("Signed-off-by: A <a@b>".toList) ("Signed-off-by: B <c@d>".toList))
        ("Signed-off-by: B <c@d>".toList) =
      ("Signed-off-by: B <c@d>".toList) := by
  decide

-- auto-wrap example: split and cursor relocation
example :
    wrap_current_body_line ("T\n\n".toList ++ List.replicate 70 'a' ++ [' '] ++ List.replicate 9 'b')
        (2, 75) =
      (("T\n\n".toList ++ List.replicate 70 'a' ++ ['\n'] ++ List.replicate 9 'b'), (3, 4)) := by
  decide

/-! ## Basic properties of `splitChar` and `joinWith` -/

theorem splitChar_ne_nil (sep : Char) (s : Str) : splitChar sep s ≠ [] := by
  cases s with
  | nil => simp [splitChar]
  | cons c rest =>
    rw [splitChar]
    cases h : splitChar sep rest with
    | nil => simp
    | cons w ws => dsimp only; split <;> simp

theorem sublist_of_mem_splitChar {sep : Char} :
    ∀ {s l : Str}, l ∈ splitChar sep s → l.Sublist s := by
  intro s
  induction s with
  | nil =>
    intro l h
    simp [splitChar] at h
    simp [h]
  | cons c rest ih =>
    intro l h
    rw [splitChar] at h
    cases hs : splitChar sep rest with
    | nil => exact absurd hs (splitChar_ne_nil sep rest)
    | cons w ws =>
      rw [hs] at h
      by_cases hc : c = sep
      · simp only [hc, if_pos rfl] at h
        rcases List.mem_cons.mp h with h | h
        · simp [h]
        · exact (ih (hs ▸ h)).cons c
      · simp only [if_neg hc] at h
        rcases List.mem_cons.mp h with h | h
        · subst h
          exact (ih (hs ▸ List.mem_cons_self w ws)).cons₂ c
        · exact (ih (hs ▸ List.mem_cons_of_mem w h)).cons c

theorem not_sep_mem_of_mem_splitChar {sep : Char} :
    ∀ {s l : Str}, l ∈ splitChar sep s → sep ∉ l := by
  intro s
  induction s with
  | nil =>
    intro l h
    simp [splitChar] at h
    simp [h]
  | cons c rest ih =>
    intro l h
    rw [splitChar] at h
    cases hs : splitChar sep rest with
    | nil => exact absurd hs (splitChar_ne_nil sep rest)
    | cons w ws =>
      rw [hs] at h
      by_cases hc : c = sep
      · simp only [hc, if_pos rfl] at h
        rcases List.mem_cons.mp h with h | h
        · simp [h]
        · exact ih (hs ▸ h)
      · simp only [if_neg hc] at h
        rcases List.mem_cons.mp h with h | h
        · subst h
          intro hm
          rcases List.mem_cons.mp hm with hm | hm
          · exact hc hm.symm
          · exact ih (hs ▸ List.mem_cons_self w ws) hm
        · exact ih (hs ▸ List.mem_cons_of_mem w h)

theorem length_le_of_mem_splitChar {sep : Char} {s l : Str} (h : l ∈ splitChar sep s) :
    l.length ≤ s.length :=
  (sublist_of_mem_splitChar h).length_le

theorem joinWith_cons (sep : Char) (x : Str) {xs : List Str} (h : xs ≠ []) :
    joinWith sep (x :: xs) = x ++ sep :: joinWith sep xs := by
  cases xs with
  | nil => exact absurd rfl h
  | cons y ys => rfl

theorem joinWith_append (sep : Char) :
    ∀ {A : List Str}, A ≠ [] → ∀ {B : List Str}, B ≠ [] →
      joinWith sep (A ++ B) = joinWith sep A ++ sep :: joinWith sep B := by
  intro A
  induction A with
  | nil => intro h; exact absurd rfl h
  | cons a A' ih =>
    intro _ B hB
    cases A' with
    | nil => simp [joinWith, joinWith_cons sep a hB]
    | cons b bs =>
      have hne : (b :: bs : List Str) ≠ [] := by simp
      have h2 : (b :: bs) ++ B ≠ [] := by simp
      calc joinWith sep ((a :: b :: bs) ++ B)
          = a ++ sep :: joinWith sep ((b :: bs) ++ B) := joinWith_cons sep a h2
        _ = a ++ sep :: (joinWith sep (b :: bs) ++ sep :: joinWith sep B) := by
            rw [ih hne hB]
        _ = (a ++ sep :: joinWith sep (b :: bs)) ++ sep :: joinWith sep B := by simp
        _ = joinWith sep (a :: b :: bs) ++ sep :: joinWith sep B := by
            rw [joinWith_cons sep a hne]

theorem splitChar_cons_sep (sep : Char) (t : Str) :
    splitChar sep (sep :: t) = [] :: splitChar sep t := by
  rw [splitChar]
  cases h : splitChar sep t with
  | nil => exact absurd h (splitChar_ne_nil sep t)
  | cons w ws => simp

theorem splitChar_append_sep {sep : Char} :
    ∀ {l : Str}, sep ∉ l → ∀ (rest : Str),
      splitChar sep (l ++ sep :: rest) = l :: splitChar sep rest := by
  intro l
  induction l with
  | nil => intro _ rest; simpa using splitChar_cons_sep sep rest
  | cons c l' ih =>
    intro h rest
    have hc : c ≠ sep := fun hc => h (hc ▸ List.mem_cons_self c l')
    have hl' : sep ∉ l' := fun hm => h (List.mem_cons_of_mem c hm)
    have h1 : (c :: l') ++ sep :: rest = c :: (l' ++ sep :: rest) := rfl
    rw [h1, splitChar]
    rw [ih hl' rest]
    simp [hc]

theorem splitChar_of_not_mem {sep : Char} : ∀ {l : Str}, sep ∉ l → splitChar sep l = [l] := by
  intro l
  induction l with
  | nil => intro _; rfl
  | cons c l' ih =>
    intro h
    have hc : c ≠ sep := fun hc => h (hc ▸ List.mem_cons_self c l')
    have hl' : sep ∉ l' := fun hm => h (List.mem_cons_of_mem c hm)
    rw [splitChar, ih hl']
    simp [hc]

theorem splitChar_joinWith {sep : Char} :
    ∀ {ls : List Str}, ls ≠ [] → (∀ l ∈ ls, sep ∉ l) →
      splitChar sep (joinWith sep ls) = ls := by
  intro ls
  induction ls with
  | nil => intro h; exact absurd rfl h
  | cons x xs ih =>
    intro _ hmem
    cases xs with
    | nil => exact splitChar_of_not_mem (hmem x (List.mem_cons_self x []))
    | cons y ys =>
      have hne : (y :: ys : List Str) ≠ [] := by simp
      rw [joinWith_cons sep x hne,
        splitChar_append_sep (hmem x (List.mem_cons_self x (y :: ys))) (joinWith sep (y :: ys)),
        ih hne (fun l hl => hmem l (List.mem_cons_of_mem x hl))]

theorem joinWith_splitChar (sep : Char) : ∀ (s : Str), joinWith sep (splitChar sep s) = s := by
  intro s
  induction s with
  | nil => rfl
  | cons c rest ih =>
    by_cases hc : c = sep
    · rw [hc, splitChar_cons_sep, joinWith_cons sep [] (splitChar_ne_nil sep rest), ih]
      rfl
    · rw [splitChar]
      cases hs : splitChar sep rest with
      | nil => exact absurd hs (splitChar_ne_nil sep rest)
      | cons w ws =>
        simp only [if_neg hc]
        cases ws with
        | nil =>
          have h2 := ih
          rw [hs] at h2
          simp only [joinWith] at h2 ⊢
          rw [h2]
        | cons v vs =>
          have hne : (v :: vs : List Str) ≠ [] := by simp
          rw [joinWith_cons sep (c :: w) hne]
          have h2 := ih
          rw [hs, joinWith_cons sep w hne] at h2
          simpa using h2

/-! ## Properties of blanks, `startsWith`, and `dropTrailingBlanks` -/

theorem stripRight_ne_nil {l : Str} {x : Char} (hx : x ∈ l) (hw : isWS x = false) :
    stripRight l ≠ [] := by
  intro h
  rw [stripRight, List.reverse_eq_nil_iff] at h
  have h2 := List.dropWhile_eq_nil_iff.mp h x (List.mem_reverse.mpr hx)
  simp [hw] at h2

theorem isBlank_false_of_mem {l : Str} {x : Char} (hx : x ∈ l) (hw : isWS x = false) :
    isBlank l = false := by
  have hx2 : x ∈ stripLeft l := by
    have hsplit := List.takeWhile_append_dropWhile isWS l
    rw [← hsplit] at hx
    rcases List.mem_append.mp hx with h | h
    · have := List.mem_takeWhile_imp h
      simp [hw] at this
    · exact h
  have := stripRight_ne_nil hx2 hw
  rw [isBlank, pyStrip]
  simpa using this

theorem startsWith_cons_decomp {p : Char} {ps s : Str} (h : startsWith (p :: ps) s = true) :
    ∃ t, s = p :: t ∧ startsWith ps t = true := by
  cases s with
  | nil => simp [startsWith] at h
  | cons c cs =>
    simp only [startsWith, Bool.and_eq_true, decide_eq_true_eq] at h
    exact ⟨cs, by rw [h.1], h.2⟩

theorem signoffMarker_head : signoffMarker = 'S' :: "igned-off-by:".toList := by decide

theorem signoff_decomp {s : Str} (h : startsWith signoffMarker s = true) :
    ∃ t, s = 'S' :: t := by
  rw [signoffMarker_head] at h
  obtain ⟨t, ht, _⟩ := startsWith_cons_decomp h
  exact ⟨t, ht⟩

theorem not_hash_of_signoff {s : Str} (h : startsWith signoffMarker s = true) :
    startsWith ['#'] s = false := by
  obtain ⟨t, ht⟩ := signoff_decomp h
  subst ht
  simp [startsWith]

theorem not_blank_of_signoff {s : Str} (h : startsWith signoffMarker s = true) :
    isBlank s = false := by
  obtain ⟨t, ht⟩ := signoff_decomp h
  subst ht
  exact isBlank_false_of_mem (List.mem_cons_self 'S' t) (by decide)

theorem startsWith_signoffMarker_nil : startsWith signoffMarker [] = false := by decide

theorem dropTrailingBlanks_nil : dropTrailingBlanks [] = [] := rfl

theorem dropTrailingBlanks_concat_blank {x : Str} (h : isBlank x = true) (A : List Str) :
    dropTrailingBlanks (A ++ [x]) = dropTrailingBlanks A := by
  simp [dropTrailingBlanks, List.dropWhile_cons, h]

theorem dropTrailingBlanks_concat_nonblank {x : Str} (h : isBlank x = false) (A : List Str) :
    dropTrailingBlanks (A ++ [x]) = A ++ [x] := by
  simp [dropTrailingBlanks, List.dropWhile_cons, h]

theorem mem_of_mem_dropTrailingBlanks {x : Str} {ls : List Str}
    (h : x ∈ dropTrailingBlanks ls) : x ∈ ls := by
  rw [dropTrailingBlanks, List.mem_reverse] at h
  exact List.mem_reverse.mp ((List.dropWhile_sublist isBlank).mem h)

theorem dropWhile_head_false {α : Type} {p : α → Bool} :
    ∀ {l : List α} {y : α} {t : List α}, l.dropWhile p = y :: t → p y = false := by
  intro l
  induction l with
  | nil => intro y t h; simp at h
  | cons a as ih =>
    intro y t h
    rw [List.dropWhile_cons] at h
    split at h
    · exact ih h
    · rename_i hpa
      cases h
      simpa using hpa

theorem dropTrailingBlanks_last (ls : List Str) :
    dropTrailingBlanks ls = [] ∨
      isBlank ((dropTrailingBlanks ls).getLastD []) = false := by
  cases hL : ls.reverse.dropWhile isBlank with
  | nil => left; simp [dropTrailingBlanks, hL]
  | cons y t =>
    right
    have hy : isBlank y = false := dropWhile_head_false hL
    rw [dropTrailingBlanks, hL]
    simpa [List.getLastD_concat] using hy

theorem dropTrailingBlanks_idem_of_last {ls : List Str}
    (h : ls = [] ∨ isBlank (ls.getLastD []) = false) :
    dropTrailingBlanks ls = ls := by
  rcases h with h | h
  · subst h; rfl
  · rcases List.eq_nil_or_concat ls with h2 | ⟨A, x, h2⟩
    · subst h2; rfl
    · subst h2
      rw [List.concat_eq_append] at h ⊢
      rw [List.getLastD_concat] at h
      exact dropTrailingBlanks_concat_nonblank h A

theorem dropTrailingBlanks_idem (ls : List Str) :
    dropTrailingBlanks (dropTrailingBlanks ls) = dropTrailingBlanks ls :=
  dropTrailingBlanks_idem_of_last (dropTrailingBlanks_last ls)

/-! ## Properties of `commentStartIndex`, `contentOf`, `commentsOf` -/

theorem csi_nil : commentStartIndex [] = 0 := rfl

theorem csi_cons_hash {l : Str} (rest : List Str) (h : startsWith ['#'] l = true) :
    commentStartIndex (l :: rest) = 0 := by
  simp [commentStartIndex, h]

theorem csi_cons_clean {l : Str} (rest : List Str) (h : startsWith ['#'] l = false) :
    commentStartIndex (l :: rest) = commentStartIndex rest + 1 := by
  simp [commentStartIndex, h]

theorem csi_le_length (ls : List Str) : commentStartIndex ls ≤ ls.length := by
  induction ls with
  | nil => simp [commentStartIndex]
  | cons l rest ih =>
    rw [commentStartIndex]
    split
    · simp
    · simpa using ih

theorem csi_append_clean {A : List Str} (h : ∀ l ∈ A, startsWith ['#'] l = false)
    (B : List Str) : commentStartIndex (A ++ B) = A.length + commentStartIndex B := by
  induction A with
  | nil => simp
  | cons a A' ih =>
    have ha := h a (List.mem_cons_self a A')
    rw [List.cons_append, csi_cons_clean _ ha, ih (fun l hl => h l (List.mem_cons_of_mem a hl))]
    simp [List.length_cons]
    omega

theorem contentOf_no_hash : ∀ {ls : List Str} {l : Str}, l ∈ contentOf ls →
    startsWith ['#'] l = false := by
  intro ls
  induction ls with
  | nil => intro l h; simp [contentOf] at h
  | cons a rest ih =>
    intro l h
    rw [contentOf, commentStartIndex] at h
    by_cases ha : startsWith ['#'] a = true
    · simp [ha] at h
    · rw [if_neg ha, List.take_succ_cons] at h
      rcases List.mem_cons.mp h with h | h
      · subst h; simpa using ha
      · exact ih h

theorem commentsOf_head_hash : ∀ {ls : List Str}, commentsOf ls ≠ [] →
    startsWith ['#'] ((commentsOf ls).headD []) = true := by
  intro ls
  induction ls with
  | nil => intro h; simp [commentsOf] at h
  | cons a rest ih =>
    intro h
    rw [commentsOf, commentStartIndex] at h ⊢
    by_cases ha : startsWith ['#'] a = true
    · simp [ha]
    · rw [if_neg ha] at h ⊢
      rw [List.drop_succ_cons] at h ⊢
      exact ih h

theorem contentOf_append_commentsOf (ls : List Str) :
    contentOf ls ++ commentsOf ls = ls :=
  List.take_append_drop _ ls

theorem contentOf_of_clean {A B : List Str} (hA : ∀ l ∈ A, startsWith ['#'] l = false)
    (hB : B = [] ∨ startsWith ['#'] (B.headD []) = true) :
    contentOf (A ++ B) = A ∧ commentsOf (A ++ B) = B := by
  have hcsi : commentStartIndex (A ++ B) = A.length := by
    rcases hB with hB | hB
    · subst hB
      simpa [commentStartIndex] using csi_append_clean hA []
    · cases B with
      | nil => simpa [commentStartIndex] using csi_append_clean hA []
      | cons b bs =>
        rw [csi_append_clean hA (b :: bs), csi_cons_hash bs (by simpa using hB)]
        simp
  constructor
  · rw [contentOf, hcsi, List.take_left]
  · rw [commentsOf, hcsi, List.drop_left]

/-! ## Characterizing the content transform of the toggle -/

theorem rsr_mem : ∀ {l r : List Str}, removeSignoffRev l = some r →
    ∀ {x : Str}, x ∈ r → x ∈ l := by
  intro l
  induction l with
  | nil => intro r h; simp [removeSignoffRev] at h
  | cons a rest ih =>
    intro r h x hx
    rw [removeSignoffRev] at h
    split at h
    · cases h
      exact List.mem_cons_of_mem a hx
    · split at h
      · simp at h
      · rcases Option.map_eq_some'.mp h with ⟨r', hr', hmap⟩
        subst hmap
        rcases List.mem_cons.mp hx with hx | hx
        · exact hx ▸ List.mem_cons_self a rest
        · exact List.mem_cons_of_mem a (ih hr' hx)

theorem rsr_cons_signoff {l : Str} (rest : List Str)
    (h : startsWith signoffMarker l = true) :
    removeSignoffRev (l :: rest) = some rest := by
  simp [removeSignoffRev, h]

theorem rsr_cons_stop {l : Str} (rest : List Str)
    (h1 : startsWith signoffMarker l = false) (h2 : isBlank l = false)
    (h3 : startsWith ['#'] l = false) :
    removeSignoffRev (l :: rest) = none := by
  simp [removeSignoffRev, h1, h2, h3]

theorem toggledContent_insert {content : List Str} (s : Str)
    (hclean : ∀ l ∈ dropTrailingBlanks content, startsWith ['#'] l = false)
    (hlast : startsWith signoffMarker ((dropTrailingBlanks content).getLastD []) = false) :
    toggledContent content s =
      if dropTrailingBlanks content = [] then [s]
      else dropTrailingBlanks content ++ [[], s] := by
  rcases List.eq_nil_or_concat (dropTrailingBlanks content) with hC | ⟨A, x, hC⟩
  · rw [toggledContent, hC]
    simp [removeSignoffRev, isBlank, pyStrip, stripLeft, stripRight, hC]
  · rw [List.concat_eq_append] at hC
    have hxlast : (dropTrailingBlanks content).getLastD [] = x := by
      rw [hC, List.getLastD_concat]
    have hxblank : isBlank x = false := by
      rcases dropTrailingBlanks_last content with h | h
      · rw [h] at hC; exact absurd hC.symm (by simp)
      · rwa [hxlast] at h
    have hxhash : startsWith ['#'] x = false :=
      hclean x (by rw [hC]; exact List.mem_append.mpr (Or.inr (List.mem_cons_self x [])))
    have hxsig : startsWith signoffMarker x = false := by rwa [hxlast] at hlast
    have hrev : (dropTrailingBlanks content).reverse = x :: A.reverse := by
      rw [hC]; simp
    rw [toggledContent, hrev, rsr_cons_stop _ hxsig hxblank hxhash]
    have hne : dropTrailingBlanks content ≠ [] := by rw [hC]; simp
    rw [if_neg hne]
    simp only [hxlast, hxblank]
    simp

theorem toggledContent_remove {content : List Str} (s : Str)
    (hlast : startsWith signoffMarker ((dropTrailingBlanks content).getLastD []) = true) :
    toggledContent content s =
      dropTrailingBlanks ((dropTrailingBlanks content).dropLast) := by
  rcases List.eq_nil_or_concat (dropTrailingBlanks content) with hC | ⟨A, x, hC⟩
  · rw [hC] at hlast
    simp at hlast
    exact absurd hlast (by rw [startsWith_signoffMarker_nil]; simp)
  · rw [List.concat_eq_append] at hC
    have hxlast : (dropTrailingBlanks content).getLastD [] = x := by
      rw [hC, List.getLastD_concat]
    have hxsig : startsWith signoffMarker x = true := by rwa [hxlast] at hlast
    have hrev : (dropTrailingBlanks content).reverse = x :: A.reverse := by
      rw [hC]; simp
    rw [toggledContent, hrev, rsr_cons_signoff _ hxsig]
    rw [hC]
    simp

theorem toggledContent_mem {content : List Str} {s l : Str}
    (h : l ∈ toggledContent content s) : l ∈ content ∨ l = [] ∨ l = s := by
  rw [toggledContent] at h
  split at h
  · rename_i rev hrev
    left
    have h1 := mem_of_mem_dropTrailingBlanks h
    rw [List.mem_reverse] at h1
    have h2 := rsr_mem hrev h1
    rw [List.mem_reverse] at h2
    exact mem_of_mem_dropTrailingBlanks h2
  · split at h <;>
    · rcases List.mem_append.mp h with h | h
      · exact Or.inl (mem_of_mem_dropTrailingBlanks h)
      · simp at h
        tauto

/-- Structure of the reassembled text of a successful toggle
(app.py lines 469-474), at the level of its split lines. -/
theorem toggleText_splits (text s : Str) (hs : ('\n' : Char) ∉ s) :
    splitChar '\n' (toggleText text s) =
      (if commentsOf (splitChar '\n' text) = [] then
        (if toggledContent (contentOf (splitChar '\n' text)) s = [] then [[]]
         else toggledContent (contentOf (splitChar '\n' text)) s)
       else if toggledContent (contentOf (splitChar '\n' text)) s = [] then
        ([] : Str) :: ([] : Str) :: commentsOf (splitChar '\n' text)
       else
        toggledContent (contentOf (splitChar '\n' text)) s ++
          ([] : Str) :: commentsOf (splitChar '\n' text)) := by
  have hlines : ∀ l ∈ splitChar '\n' text, ('\n' : Char) ∉ l :=
    fun l hl => not_sep_mem_of_mem_splitChar hl
  have hc' : ∀ l ∈ toggledContent (contentOf (splitChar '\n' text)) s, ('\n' : Char) ∉ l := by
    intro l hl
    rcases toggledContent_mem hl with h | h | h
    · exact hlines l (List.mem_of_mem_take h)
    · subst h; simp
    · subst h; exact hs
  have hcm : ∀ l ∈ commentsOf (splitChar '\n' text), ('\n' : Char) ∉ l :=
    fun l hl => hlines l (List.mem_of_mem_drop hl)
  rw [toggleText]
  simp only [toggleLines]
  by_cases hcme : commentsOf (splitChar '\n' text) = []
  · rw [if_neg (by simpa using hcme), if_pos hcme]
    by_cases hce : toggledContent (contentOf (splitChar '\n' text)) s = []
    · rw [hce, if_pos rfl]
      rfl
    · rw [if_neg hce]
      exact splitChar_joinWith hce hc'
  · rw [if_pos (by simpa using hcme), if_neg hcme]
    by_cases hce : toggledContent (contentOf (splitChar '\n' text)) s = []
    · rw [hce, if_pos rfl]
      rw [joinWith]
      rw [List.nil_append, splitChar_cons_sep, splitChar_cons_sep,
        splitChar_joinWith hcme hcm]
    · rw [if_neg hce]
      have hjoin : joinWith '\n' (toggledContent (contentOf (splitChar '\n' text)) s) ++
          '\n' :: '\n' :: joinWith '\n' (commentsOf (splitChar '\n' text)) =
          joinWith '\n' (toggledContent (contentOf (splitChar '\n' text)) s ++
            ([] : Str) :: commentsOf (splitChar '\n' text)) := by
        rw [joinWith_append '\n' hce (by simp),
          joinWith_cons '\n' ([] : Str) hcme]
        rfl
      rw [hjoin]
      refine splitChar_joinWith (by simp) ?_
      intro l hl
      rcases List.mem_append.mp hl with h | h
      · exact hc' l h
      · rcases List.mem_cons.mp h with h | h
        · subst h; simp
        · exact hcm l h

theorem toggledContent_last {content : List Str} {s : Str}
    (hsig : startsWith signoffMarker s = true) :
    toggledContent content s = [] ∨
      isBlank ((toggledContent content s).getLastD []) = false := by
  rw [toggledContent]
  split
  · exact dropTrailingBlanks_last _
  · right
    split
    · have h2 : dropTrailingBlanks content ++ [[], s] =
          (dropTrailingBlanks content ++ [([] : Str)]) ++ [s] := by simp
      rw [h2, List.getLastD_concat]
      exact not_blank_of_signoff hsig
    · rw [List.getLastD_concat]
      exact not_blank_of_signoff hsig

/-- C4: after a successful trailer toggle, when a comment block exists
the reassembled buffer has exactly one blank line between the last
content line (which is non-blank) and the first comment line (which
starts with `#`); when no comment block exists, the buffer is the
content lines joined alone. -/
theorem C4_separator_normalization (text s : Str)
    (hsig : startsWith signoffMarker s = true) (hnl : ('\n' : Char) ∉ s) :
    (commentsOf (splitChar '\n' text) ≠ [] →
      toggledContent (contentOf (splitChar '\n' text)) s ≠ [] →
      splitChar '\n' (toggleText text s) =
          toggledContent (contentOf (splitChar '\n' text)) s ++
            ([] : Str) :: commentsOf (splitChar '\n' text) ∧
        isBlank ((toggledContent (contentOf (splitChar '\n' text)) s).getLastD []) = false ∧
        startsWith ['#'] ((commentsOf (splitChar '\n' text)).headD []) = true) ∧
    (commentsOf (splitChar '\n' text) = [] →
      toggleText text s = joinWith '\n' (toggledContent (contentOf (splitChar '\n' text)) s) ∧
      (toggledContent (contentOf (splitChar '\n' text)) s ≠ [] →
        splitChar '\n' (toggleText text s) =
          toggledContent (contentOf (splitChar '\n' text)) s)) := by
  constructor
  · intro hcm hc
    refine ⟨?_, ?_, commentsOf_head_hash hcm⟩
    · rw [toggleText_splits text s hnl, if_neg hcm, if_neg hc]
    · rcases @toggledContent_last (contentOf (splitChar '\n' text)) s hsig with h | h
      · exact absurd h hc
      · exact h
  · intro hcm
    constructor
    · rw [toggleText]
      simp only [toggleLines]
      rw [if_neg (by simpa using hcm)]
    · intro hc
      rw [toggleText_splits text s hnl, if_pos hcm, if_neg hc]

theorem C4_witness :
    startsWith signoffMarker ("Signed-off-by: A <a@b.com>".toList) = true ∧
      ('\n' : Char) ∉ ("Signed-off-by: A <a@b.com>".toList) ∧
      ((commentsOf (splitChar '\n' ("Subject\n\nBody text\n\n# comment".toList)) ≠ [] →
        toggledContent (contentOf (splitChar '\n' ("Subject\n\nBody text\n\n# comment".toList)))
            ("Signed-off-by: A <a@b.com>".toList) ≠ [] →
        splitChar '\n' (toggleText ("Subject\n\nBody text\n\n# comment".toList)
              ("Signed-off-by: A <a@b.com>".toList)) =
            toggledContent (contentOf (splitChar '\n' ("Subject\n\nBody text\n\n# comment".toList)))
              ("Signed-off-by: A <a@b.com>".toList) ++
              ([] : Str) :: commentsOf (splitChar '\n' ("Subject\n\nBody text\n\n# comment".toList)) ∧
          isBlank ((toggledContent
              (contentOf (splitChar '\n' ("Subject\n\nBody text\n\n# comment".toList)))
              ("Signed-off-by: A <a@b.com>".toList)).getLastD []) = false ∧
          startsWith ['#']
            ((commentsOf (splitChar '\n' ("Subject\n\nBody text\n\n# comment".toList))).headD []) =
            true) ∧
      (commentsOf (splitChar '\n' ("Subject\n\nBody text\n\n# comment".toList)) = [] →
        toggleText ("Subject\n\nBody text\n\n# comment".toList)
            ("Signed-off-by: A <a@b.com>".toList) =
          joinWith '\n'
            (toggledContent (contentOf (splitChar '\n' ("Subject\n\nBody text\n\n# comment".toList)))
              ("Signed-off-by: A <a@b.com>".toList)) ∧
        (toggledContent (contentOf (splitChar '\n' ("Subject\n\nBody text\n\n# comment".toList)))
            ("Signed-off-by: A <a@b.com>".toList) ≠ [] →
          splitChar '\n' (toggleText ("Subject\n\nBody text\n\n# comment".toList)
              ("Signed-off-by: A <a@b.com>".toList)) =
            toggledContent
              (contentOf (splitChar '\n' ("Subject\n\nBody text\n\n# comment".toList)))
              ("Signed-off-by: A <a@b.com>".toList)))) :=
  ⟨by decide, by decide,
    C4_separator_normalization ("Subject\n\nBody text\n\n# comment".toList)
      ("Signed-off-by: A <a@b.com>".toList) (by decide) (by decide)⟩

/-- C6: the toggle fails exactly when the identity provider returned
nothing; on failure the buffer and cursor are untouched and a status
message is shown. -/
theorem C6_failure_atomic (name email : Option Str) (text : Str) (cursor : Nat × Nat) :
    ((action_toggle_signoff text cursor (get_signed_off_by name email)).2.isSome ↔
      get_signed_off_by name email = none) ∧
    (get_signed_off_by name email = none →
      (action_toggle_signoff text cursor (get_signed_off_by name email)).1 = (text, cursor) ∧
      (action_toggle_signoff text cursor (get_signed_off_by name email)).2 =
        some ("Git user not configured".toList)) := by
  by_cases h : truthy name ∧ truthy email
  · have hfmt : get_signed_off_by name email =
        some ("Signed-off-by: ".toList ++ name.getD [] ++ " <".toList ++ email.getD [] ++ ['>']) := by
      rw [get_signed_off_by, if_pos h]
    rw [hfmt]
    constructor
    · rw [action_toggle_signoff]
      rw [if_pos (by simp [truthy])]
      simp
    · intro hnone
      simp at hnone
  · have hnone : get_signed_off_by name email = none := by
      rw [get_signed_off_by, if_neg h]
    rw [hnone]
    constructor
    · rw [action_toggle_signoff]
      rw [if_neg (by simp [truthy])]
      simp
    · intro _
      rw [action_toggle_signoff]
      rw [if_neg (by simp [truthy])]
      exact ⟨rfl, rfl⟩

theorem C6_witness :
    (((action_toggle_signoff ("Test".toList) (0, 0)
          (get_signed_off_by none (some ("e@x".toList)))).2.isSome ↔
        get_signed_off_by none (some ("e@x".toList)) = none) ∧
      (get_signed_off_by none (some ("e@x".toList)) = none →
        (action_toggle_signoff ("Test".toList) (0, 0)
            (get_signed_off_by none (some ("e@x".toList)))).1 = (("Test".toList), (0, 0)) ∧
        (action_toggle_signoff ("Test".toList) (0, 0)
            (get_signed_off_by none (some ("e@x".toList)))).2 =
          some ("Git user not configured".toList))) :=
  C6_failure_atomic none (some ("e@x".toList)) ("Test".toList) (0, 0)

/-- C10: when the last non-blank content line starts with
`Signed-off-by:`, the toggle removes that line; the result does not
depend on the supplied trailer string at all, so removal happens even
when the line differs from the configured identity's trailer. -/
theorem C10_removal_by_marker_only (text s : Str)
    (hlast : startsWith signoffMarker
        ((dropTrailingBlanks (contentOf (splitChar '\n' text))).getLastD []) = true) :
    toggledContent (contentOf (splitChar '\n' text)) s =
        dropTrailingBlanks ((dropTrailingBlanks (contentOf (splitChar '\n' text))).dropLast) ∧
      (∀ s2 : Str, toggledContent (contentOf (splitChar '\n' text)) s2 =
        toggledContent (contentOf (splitChar '\n' text)) s) := by
  refine ⟨toggledContent_remove s hlast, fun s2 => ?_⟩
  rw [toggledContent_remove s hlast, toggledContent_remove s2 hlast]

theorem C10_witness :
    startsWith signoffMarker
        ((dropTrailingBlanks (contentOf (splitChar '\n'
          ("Subject\n\nSigned-off-by: X <x@y>\n\n# c".toList)))).getLastD []) = true ∧
      (toggledContent (contentOf (splitChar '\n'
            ("Subject\n\nSigned-off-by: X <x@y>\n\n# c".toList)))
            ("Signed-off-by: B <c@d>".toList) =
          dropTrailingBlanks ((dropTrailingBlanks (contentOf (splitChar '\n'
            ("Subject\n\nSigned-off-by: X <x@y>\n\n# c".toList)))).dropLast) ∧
        (∀ s2 : Str, toggledContent (contentOf (splitChar '\n'
              ("Subject\n\nSigned-off-by: X <x@y>\n\n# c".toList))) s2 =
            toggledContent (contentOf (splitChar '\n'
              ("Subject\n\nSigned-off-by: X <x@y>\n\n# c".toList)))
              ("Signed-off-by: B <c@d>".toList))) :=
  ⟨by decide,
    C10_removal_by_marker_only ("Subject\n\nSigned-off-by: X <x@y>\n\n# c".toList)
      ("Signed-off-by: B <c@d>".toList) (by decide)⟩

theorem contentOf_of_clean_nil {A : List Str}
    (hA : ∀ l ∈ A, startsWith ['#'] l = false) :
    contentOf A = A ∧ commentsOf A = [] := by
  simpa using contentOf_of_clean hA (Or.inl rfl)

/-- C1 (counterexample): toggling twice with a trailer string different
from the document's existing trailer does not restore the original
content lines; on a one-line buffer consisting only of a foreign
trailer, the double toggle replaces it by the supplied one. -/
theorem C1_counterexample :
    dropTrailingBlanks (contentOf (splitChar '\n'
        (toggleText (toggleText ("Signed-off-by: A <a@b>".toList)
            ("Signed-off-by: B <c@d>".toList))
          ("Signed-off-by: B <c@d>".toList)))) ≠
      dropTrailingBlanks (contentOf (splitChar '\n' ("Signed-off-by: A <a@b>".toList))) ∧
    commentsOf (splitChar '\n'
        (toggleText (toggleText ("Signed-off-by: A <a@b>".toList)
            ("Signed-off-by: B <c@d>".toList))
          ("Signed-off-by: B <c@d>".toList))) =
      commentsOf (splitChar '\n' ("Signed-off-by: A <a@b>".toList)) := by
  decide

/-- C1 (amended): when the trimmed content does not already end in a
`Signed-off-by:` line, toggling twice with the same well-formed trailer
string is content-preserving: the content lines (modulo the normalized
trailing-blank separator) and the comment block both return to the
original. -/
theorem C1_toggle_involution (text s : Str)
    (hsig : startsWith signoffMarker s = true) (hnl : ('\n' : Char) ∉ s)
    (hnot : startsWith signoffMarker
        ((dropTrailingBlanks (contentOf (splitChar '\n' text))).getLastD []) = false) :
    dropTrailingBlanks (contentOf (splitChar '\n' (toggleText (toggleText text s) s))) =
        dropTrailingBlanks (contentOf (splitChar '\n' text)) ∧
      commentsOf (splitChar '\n' (toggleText (toggleText text s) s)) =
        commentsOf (splitChar '\n' text) := by
  have hsnb : isBlank s = false := not_blank_of_signoff hsig
  have hsnh : startsWith ['#'] s = false := not_hash_of_signoff hsig
  have hclean : ∀ l ∈ dropTrailingBlanks (contentOf (splitChar '\n' text)),
      startsWith ['#'] l = false :=
    fun _ hl => contentOf_no_hash (mem_of_mem_dropTrailingBlanks hl)
  have hC1 := toggledContent_insert s hclean hnot
  -- the content after the first toggle is `A ++ [s]` with `A` trimming
  -- back to the original trimmed content
  obtain ⟨A, hA, hAdtb⟩ :
      ∃ B : List Str, toggledContent (contentOf (splitChar '\n' text)) s = B ++ [s] ∧
        dropTrailingBlanks B = dropTrailingBlanks (contentOf (splitChar '\n' text)) := by
    by_cases hC : dropTrailingBlanks (contentOf (splitChar '\n' text)) = []
    · exact ⟨[], by rw [hC1, if_pos hC]; rfl, by rw [hC]; rfl⟩
    · refine ⟨dropTrailingBlanks (contentOf (splitChar '\n' text)) ++ [([] : Str)], ?_, ?_⟩
      · rw [hC1, if_neg hC]; simp
      · rw [@dropTrailingBlanks_concat_blank [] (by decide) _]
        exact dropTrailingBlanks_idem _
  have hc1ne : toggledContent (contentOf (splitChar '\n' text)) s ≠ [] := by
    rw [hA]; simp
  have hc1clean : ∀ l ∈ toggledContent (contentOf (splitChar '\n' text)) s,
      startsWith ['#'] l = false := by
    intro l hl
    rcases toggledContent_mem hl with h | h | h
    · exact contentOf_no_hash h
    · subst h; rfl
    · subst h; exact hsnh
  -- removing from any content that trims to `A ++ [s]` restores the original
  have hremove : ∀ content2 : List Str, dropTrailingBlanks content2 = A ++ [s] →
      toggledContent content2 s = dropTrailingBlanks (contentOf (splitChar '\n' text)) := by
    intro content2 h2
    rw [toggledContent_remove s (by rw [h2, List.getLastD_concat]; exact hsig), h2,
      List.dropLast_concat, hAdtb]
  have hsplit1 := toggleText_splits text s hnl
  have hsplit2 := toggleText_splits (toggleText text s) s hnl
  by_cases hcm : commentsOf (splitChar '\n' text) = []
  · rw [if_pos hcm, if_neg hc1ne] at hsplit1
    have hco2a : contentOf (splitChar '\n' (toggleText text s)) =
        toggledContent (contentOf (splitChar '\n' text)) s := by
      rw [hsplit1]; exact (contentOf_of_clean_nil hc1clean).1
    have hco2b : commentsOf (splitChar '\n' (toggleText text s)) = [] := by
      rw [hsplit1]; exact (contentOf_of_clean_nil hc1clean).2
    have hc2 : toggledContent (contentOf (splitChar '\n' (toggleText text s))) s =
        dropTrailingBlanks (contentOf (splitChar '\n' text)) := by
      rw [hco2a]
      exact hremove _ (by rw [hA]; exact dropTrailingBlanks_concat_nonblank hsnb A)
    rw [hco2b, if_pos rfl, hc2] at hsplit2
    by_cases hC : dropTrailingBlanks (contentOf (splitChar '\n' text)) = []
    · rw [if_pos hC] at hsplit2
      rw [hsplit2, hcm, hC]
      exact ⟨by decide, by decide⟩
    · rw [if_neg hC] at hsplit2
      rw [hsplit2, hcm]
      have hfinal := contentOf_of_clean_nil hclean
      rw [hfinal.1, hfinal.2]
      exact ⟨dropTrailingBlanks_idem _, rfl⟩
  · rw [if_neg hcm, if_neg hc1ne] at hsplit1
    have hsplitEq : splitChar '\n' (toggleText text s) =
        (toggledContent (contentOf (splitChar '\n' text)) s ++ [([] : Str)]) ++
          commentsOf (splitChar '\n' text) := by
      rw [hsplit1]; simp
    have hco2 := @contentOf_of_clean
      (toggledContent (contentOf (splitChar '\n' text)) s ++ [([] : Str)])
      (commentsOf (splitChar '\n' text))
      (by
        intro l hl
        rcases List.mem_append.mp hl with h | h
        · exact hc1clean l h
        · simp at h; subst h; rfl)
      (Or.inr (commentsOf_head_hash hcm))
    have hco2a : contentOf (splitChar '\n' (toggleText text s)) =
        toggledContent (contentOf (splitChar '\n' text)) s ++ [([] : Str)] := by
      rw [hsplitEq]; exact hco2.1
    have hco2b : commentsOf (splitChar '\n' (toggleText text s)) =
        commentsOf (splitChar '\n' text) := by
      rw [hsplitEq]; exact hco2.2
    have hc2 : toggledContent (contentOf (splitChar '\n' (toggleText text s))) s =
        dropTrailingBlanks (contentOf (splitChar '\n' text)) := by
      rw [hco2a]
      refine hremove _ ?_
      rw [hA, @dropTrailingBlanks_concat_blank [] (by decide) (A ++ [s])]
      exact dropTrailingBlanks_concat_nonblank hsnb A
    rw [hco2b, if_neg hcm, hc2] at hsplit2
    by_cases hC : dropTrailingBlanks (contentOf (splitChar '\n' text)) = []
    · rw [if_pos hC] at hsplit2
      rw [hsplit2, hC]
      have hfinal := @contentOf_of_clean
        ([([] : Str), ([] : Str)]) (commentsOf (splitChar '\n' text))
        (by intro l hl; simp at hl; simp [hl]; rfl)
        (Or.inr (commentsOf_head_hash hcm))
      have hlist : ([] : Str) :: ([] : Str) :: commentsOf (splitChar '\n' text) =
          [([] : Str), ([] : Str)] ++ commentsOf (splitChar '\n' text) := rfl
      rw [hlist, hfinal.1, hfinal.2]
      exact ⟨by decide, rfl⟩
    · rw [if_neg hC] at hsplit2
      have hsplit2Eq : splitChar '\n' (toggleText (toggleText text s) s) =
          (dropTrailingBlanks (contentOf (splitChar '\n' text)) ++ [([] : Str)]) ++
            commentsOf (splitChar '\n' text) := by
        rw [hsplit2]; simp
      have hfinal := @contentOf_of_clean
        (dropTrailingBlanks (contentOf (splitChar '\n' text)) ++ [([] : Str)])
        (commentsOf (splitChar '\n' text))
        (by
          intro l hl
          rcases List.mem_append.mp hl with h | h
          · exact hclean l h
          · simp at h; subst h; rfl)
        (Or.inr (commentsOf_head_hash hcm))
      rw [hsplit2Eq, hfinal.1, hfinal.2]
      refine ⟨?_, rfl⟩
      rw [@dropTrailingBlanks_concat_blank [] (by decide)
        (dropTrailingBlanks (contentOf (splitChar '\n' text)))]
      exact dropTrailingBlanks_idem _

theorem C1_witness :
    startsWith signoffMarker ("Signed-off-by: A <a@b.com>".toList) = true ∧
      ('\n' : Char) ∉ ("Signed-off-by: A <a@b.com>".toList) ∧
      startsWith signoffMarker
        ((dropTrailingBlanks (contentOf (splitChar '\n'
          ("Subject\n\nBody text\n\n# comment".toList)))).getLastD []) = false ∧
      (dropTrailingBlanks (contentOf (splitChar '\n'
          (toggleText (toggleText ("Subject\n\nBody text\n\n# comment".toList)
              ("Signed-off-by: A <a@b.com>".toList))
            ("Signed-off-by: A <a@b.com>".toList)))) =
          dropTrailingBlanks (contentOf (splitChar '\n'
            ("Subject\n\nBody text\n\n# comment".toList))) ∧
        commentsOf (splitChar '\n'
            (toggleText (toggleText ("Subject\n\nBody text\n\n# comment".toList)
                ("Signed-off-by: A <a@b.com>".toList))
              ("Signed-off-by: A <a@b.com>".toList))) =
          commentsOf (splitChar '\n' ("Subject\n\nBody text\n\n# comment".toList))) :=
  ⟨by decide, by decide, by decide,
    C1_toggle_involution ("Subject\n\nBody text\n\n# comment".toList)
      ("Signed-off-by: A <a@b.com>".toList) (by decide) (by decide) (by decide)⟩

/-! ## Characters appearing in wrapper output -/

theorem mem_of_mem_pyStrip {s : Str} {c : Char} (h : c ∈ pyStrip s) : c ∈ s := by
  rw [pyStrip, stripRight, stripLeft] at h
  rw [List.mem_reverse] at h
  have h2 : c ∈ (s.dropWhile isWS).reverse :=
    List.Sublist.mem h (List.dropWhile_sublist _)
  rw [List.mem_reverse] at h2
  exact List.Sublist.mem h2 (List.dropWhile_sublist _)

theorem wrapStep_chars {l : Str} {w : Nat} {st : List Str × Str} {word : Str}
    (h1 : ∀ x ∈ st.1, ∀ c ∈ x, c ∈ l ∨ c = ' ')
    (h2 : ∀ c ∈ st.2, c ∈ l ∨ c = ' ')
    (hw : ∀ c ∈ word, c ∈ l) :
    (∀ x ∈ (wrapStep w st word).1, ∀ c ∈ x, c ∈ l ∨ c = ' ') ∧
      (∀ c ∈ (wrapStep w st word).2, c ∈ l ∨ c = ' ') := by
  have htest : ∀ c ∈ (if st.2 = [] then word else pyStrip (st.2 ++ ' ' :: word)),
      c ∈ l ∨ c = ' ' := by
    split
    · exact fun c hc => Or.inl (hw c hc)
    · intro c hc
      have h3 := mem_of_mem_pyStrip hc
      rcases List.mem_append.mp h3 with h4 | h4
      · exact h2 c h4
      · rcases List.mem_cons.mp h4 with h5 | h5
        · exact Or.inr h5
        · exact Or.inl (hw c h5)
  simp only [wrapStep]
  by_cases hword : word = []
  · rw [if_pos hword]
    by_cases hcur : st.2 = []
    · rw [if_pos hcur]; exact ⟨h1, h2⟩
    · rw [if_neg hcur]
      refine ⟨h1, ?_⟩
      intro c hc
      rcases List.mem_append.mp hc with h3 | h3
      · exact h2 c h3
      · simp at h3; exact Or.inr h3
  · rw [if_neg hword]
    by_cases htl : (if st.2 = [] then word else pyStrip (st.2 ++ ' ' :: word)).length ≤ w
    · rw [if_pos htl]; exact ⟨h1, htest⟩
    · rw [if_neg htl]
      by_cases hcur : st.2 = []
      · rw [if_pos hcur]; exact ⟨h1, fun c hc => Or.inl (hw c hc)⟩
      · rw [if_neg hcur]
        refine ⟨?_, fun c hc => Or.inl (hw c hc)⟩
        intro x hx
        rcases List.mem_append.mp hx with h3 | h3
        · exact h1 x h3
        · simp at h3; subst h3; exact h2

theorem wrapFold_chars {l : Str} (w : Nat) :
    ∀ (words : List Str), (∀ word ∈ words, ∀ c ∈ word, c ∈ l) →
    ∀ (st : List Str × Str), (∀ x ∈ st.1, ∀ c ∈ x, c ∈ l ∨ c = ' ') →
      (∀ c ∈ st.2, c ∈ l ∨ c = ' ') →
      (∀ x ∈ (words.foldl (wrapStep w) st).1, ∀ c ∈ x, c ∈ l ∨ c = ' ') ∧
        (∀ c ∈ (words.foldl (wrapStep w) st).2, c ∈ l ∨ c = ' ') := by
  intro words
  induction words with
  | nil => intro _ st h1 h2; exact ⟨h1, h2⟩
  | cons word rest ih =>
    intro hwds st h1 h2
    rw [List.foldl_cons]
    have hstep := @wrapStep_chars l w st word h1 h2 (hwds word (List.mem_cons_self word rest))
    exact ih (fun word2 hw2 => hwds word2 (List.mem_cons_of_mem _ hw2)) _ hstep.1 hstep.2

theorem wrap_line_chars {line : Str} {w : Nat} :
    ∀ x ∈ wrap_line line w, ∀ c ∈ x, c ∈ line ∨ c = ' ' := by
  intro x hx c hc
  rw [wrap_line] at hx
  split at hx
  · simp at hx; subst hx; simp at hc
  · split at hx
    · simp at hx; subst hx; exact Or.inl hc
    · have hwords : ∀ word ∈ splitChar ' ' line, ∀ ch ∈ word, ch ∈ line :=
        fun word hwd ch hch => List.Sublist.mem hch (sublist_of_mem_splitChar hwd)
      have hfold := wrapFold_chars w (splitChar ' ' line) hwords ([], [])
        (by simp) (by simp)
      simp only at hx
      split at hx
      · simp at hx; subst hx; simp at hc
      · rw [wrapCore, outFinal, wrapFold] at hx
        split at hx
        · exact hfold.1 x hx c hc
        · rcases List.mem_append.mp hx with h3 | h3
          · exact hfold.1 x h3 c hc
          · simp at h3; subst h3; exact hfold.2 c hc

theorem wrap_line_no_nl {line : Str} {w : Nat} (h : ('\n' : Char) ∉ line) :
    ∀ x ∈ wrap_line line w, ('\n' : Char) ∉ x := by
  intro x hx hm
  rcases wrap_line_chars x hx '\n' hm with h2 | h2
  · exact h h2
  · exact absurd h2 (by decide)

theorem wrap_line_ne_nil (line : Str) (w : Nat) : wrap_line line w ≠ [] := by
  rw [wrap_line]
  split
  · simp
  · split
    · simp
    · simp only
      split
      · simp
      · assumption

/-! ## Characterization of the auto-wrap (used by C5 and C9) -/

theorem wrap_body_spec (text : Str) (row col : Nat) :
    (row < 2 ∨ (splitChar '\n' text).length ≤ row ∨
      ((splitChar '\n' text).getD row []).length ≤ BODY_MAX_LENGTH ∨
      (wrap_line ((splitChar '\n' text).getD row []) BODY_MAX_LENGTH).length ≤ 1 →
      wrap_current_body_line text (row, col) = (text, (row, col))) ∧
    (2 ≤ row → row < (splitChar '\n' text).length →
      BODY_MAX_LENGTH < ((splitChar '\n' text).getD row []).length →
      1 < (wrap_line ((splitChar '\n' text).getD row []) BODY_MAX_LENGTH).length →
      wrap_current_body_line text (row, col) =
        (joinWith '\n'
          ((splitChar '\n' text).take row ++
            wrap_line ((splitChar '\n' text).getD row []) BODY_MAX_LENGTH ++
            (splitChar '\n' text).drop (row + 1)),
         if col ≤ ((wrap_line ((splitChar '\n' text).getD row [])
              BODY_MAX_LENGTH).getD 0 []).length then
           (row, col)
         else
           (row + 1,
            min (col - ((wrap_line ((splitChar '\n' text).getD row [])
                BODY_MAX_LENGTH).getD 0 []).length - 1)
              ((wrap_line ((splitChar '\n' text).getD row [])
                BODY_MAX_LENGTH).getD 1 []).length))) := by
  constructor
  · intro h
    rw [wrap_current_body_line]
    simp only
    rcases h with h | h | h | h
    · rw [if_pos (Or.inl h)]
    · rw [if_pos (Or.inr h)]
    · by_cases h0 : row < 2 ∨ (splitChar '\n' text).length ≤ row
      · rw [if_pos h0]
      · rw [if_neg h0, if_pos h]
    · by_cases h0 : row < 2 ∨ (splitChar '\n' text).length ≤ row
      · rw [if_pos h0]
      · rw [if_neg h0]
        by_cases h1 : ((splitChar '\n' text).getD row []).length ≤ BODY_MAX_LENGTH
        · rw [if_pos h1]
        · rw [if_neg h1, if_pos h]
  · intro h2le hlt hlen hwr
    rw [wrap_current_body_line]
    simp only
    rw [if_neg (by omega), if_neg (by omega), if_neg (by omega)]
    by_cases hcol : ((wrap_line ((splitChar '\n' text).getD row [])
        BODY_MAX_LENGTH).getD 0 []).length < col
    · rw [if_pos hcol, if_neg (by omega)]
    · rw [if_neg hcol, if_pos (by omega)]

theorem getD_middle (A B C : List Str) (j : Nat) (hj : j < B.length) :
    (A ++ B ++ C).getD (A.length + j) [] = B.getD j [] := by
  simp only [List.getD_eq_getElem?_getD]
  rw [List.append_assoc, List.getElem?_append_right (Nat.le_add_right _ _),
    Nat.add_sub_cancel_left, List.getElem?_append_left hj]

theorem wrap_newLines_split (text : Str) {row : Nat}
    (h2 : row < (splitChar '\n' text).length) :
    splitChar '\n' (joinWith '\n' ((splitChar '\n' text).take row ++
        wrap_line ((splitChar '\n' text).getD row []) BODY_MAX_LENGTH ++
        (splitChar '\n' text).drop (row + 1))) =
      (splitChar '\n' text).take row ++
        wrap_line ((splitChar '\n' text).getD row []) BODY_MAX_LENGTH ++
        (splitChar '\n' text).drop (row + 1) := by
  have hcur : ('\n' : Char) ∉ (splitChar '\n' text).getD row [] := by
    rw [List.getD_eq_getElem?_getD, List.getElem?_eq_getElem h2]
    simp only [Option.getD_some]
    exact not_sep_mem_of_mem_splitChar (List.getElem_mem h2)
  refine splitChar_joinWith ?_ ?_
  · intro hh
    rcases List.append_eq_nil.mp hh with ⟨hh1, _⟩
    rcases List.append_eq_nil.mp hh1 with ⟨_, hh3⟩
    exact wrap_line_ne_nil _ _ hh3
  · intro l hl
    rcases List.mem_append.mp hl with h | h
    · rcases List.mem_append.mp h with h | h
      · exact not_sep_mem_of_mem_splitChar (List.mem_of_mem_take h)
      · exact wrap_line_no_nl hcur l h
    · exact not_sep_mem_of_mem_splitChar (List.mem_of_mem_drop h)

/-- C5: the auto-wrap is a no-op unless the cursor row is a body row
(`row ≥ 2`, `row < lineCount`) whose line exceeds 72 characters and
wraps into more than one segment; when it acts, it replaces exactly
that line by its wrapped segments, and the cursor stays at
`(row, col)` when the column lies within the first segment, else it
moves to `(row + 1, col − len(first) − 1)` clamped to the next row's
length. -/
theorem C5_autowrap_guards_and_cursor (text : Str) (row col : Nat) :
    (row < 2 ∨ (splitChar '\n' text).length ≤ row ∨
      ((splitChar '\n' text).getD row []).length ≤ BODY_MAX_LENGTH ∨
      (wrap_line ((splitChar '\n' text).getD row []) BODY_MAX_LENGTH).length ≤ 1 →
      wrap_current_body_line text (row, col) = (text, (row, col))) ∧
    (2 ≤ row → row < (splitChar '\n' text).length →
      BODY_MAX_LENGTH < ((splitChar '\n' text).getD row []).length →
      1 < (wrap_line ((splitChar '\n' text).getD row []) BODY_MAX_LENGTH).length →
      splitChar '\n' (wrap_current_body_line text (row, col)).1 =
          (splitChar '\n' text).take row ++
            wrap_line ((splitChar '\n' text).getD row []) BODY_MAX_LENGTH ++
            (splitChar '\n' text).drop (row + 1) ∧
        (wrap_current_body_line text (row, col)).2 =
          (if col ≤ ((wrap_line ((splitChar '\n' text).getD row [])
              BODY_MAX_LENGTH).getD 0 []).length then
            (row, col)
          else
            (row + 1,
             min (col - ((wrap_line ((splitChar '\n' text).getD row [])
                 BODY_MAX_LENGTH).getD 0 []).length - 1)
               ((wrap_line ((splitChar '\n' text).getD row [])
                 BODY_MAX_LENGTH).getD 1 []).length))) := by
  refine ⟨(wrap_body_spec text row col).1, ?_⟩
  intro h1 h2 h3 h4
  rw [(wrap_body_spec text row col).2 h1 h2 h3 h4]
  exact ⟨wrap_newLines_split text h2, rfl⟩

theorem C5_witness :
    (2 ≤ 2 ∧
      2 < (splitChar '\n'
        ("T\n\n".toList ++ List.replicate 70 'a' ++ [' '] ++ List.replicate 9 'b')).length ∧
      BODY_MAX_LENGTH < ((splitChar '\n'
        ("T\n\n".toList ++ List.replicate 70 'a' ++ [' '] ++
          List.replicate 9 'b')).getD 2 []).length ∧
      1 < (wrap_line ((splitChar '\n'
        ("T\n\n".toList ++ List.replicate 70 'a' ++ [' '] ++
          List.replicate 9 'b')).getD 2 []) BODY_MAX_LENGTH).length) ∧
    (splitChar '\n' (wrap_current_body_line
          ("T\n\n".toList ++ List.replicate 70 'a' ++ [' '] ++ List.replicate 9 'b')
          (2, 75)).1 =
        (splitChar '\n'
          ("T\n\n".toList ++ List.replicate 70 'a' ++ [' '] ++
            List.replicate 9 'b')).take 2 ++
          wrap_line ((splitChar '\n'
            ("T\n\n".toList ++ List.replicate 70 'a' ++ [' '] ++
              List.replicate 9 'b')).getD 2 []) BODY_MAX_LENGTH ++
          (splitChar '\n'
            ("T\n\n".toList ++ List.replicate 70 'a' ++ [' '] ++
              List.replicate 9 'b')).drop 3 ∧
      (wrap_current_body_line
          ("T\n\n".toList ++ List.replicate 70 'a' ++ [' '] ++ List.replicate 9 'b')
          (2, 75)).2 =
        (if (75 : Nat) ≤ ((wrap_line ((splitChar '\n'
              ("T\n\n".toList ++ List.replicate 70 'a' ++ [' '] ++
                List.replicate 9 'b')).getD 2 []) BODY_MAX_LENGTH).getD 0 []).length then
          ((2 : Nat), (75 : Nat))
        else
          (3,
           min (75 - ((wrap_line ((splitChar '\n'
               ("T\n\n".toList ++ List.replicate 70 'a' ++ [' '] ++
                 List.replicate 9 'b')).getD 2 []) BODY_MAX_LENGTH).getD 0 []).length - 1)
             ((wrap_line ((splitChar '\n'
               ("T\n\n".toList ++ List.replicate 70 'a' ++ [' '] ++
                 List.replicate 9 'b')).getD 2 []) BODY_MAX_LENGTH).getD 1 []).length))) :=
  ⟨⟨by decide, by decide, by decide, by decide⟩,
    (C5_autowrap_guards_and_cursor
        ("T\n\n".toList ++ List.replicate 70 'a' ++ [' '] ++ List.replicate 9 'b') 2 75).2
      (by decide) (by decide) (by decide) (by decide)⟩

/-- C9: both buffer transforms keep the cursor valid: starting from an
in-bounds cursor, the auto-wrap and the trailer toggle each produce a
cursor whose row is within the resulting document's line count and
whose column is within that row's length. -/
theorem C9_cursor_stays_valid (text : Str) (row col : Nat) (so : Option Str)
    (hrow : row < (splitChar '\n' text).length)
    (hcol : col ≤ ((splitChar '\n' text).getD row []).length) :
    ((wrap_current_body_line text (row, col)).2.1 <
        (splitChar '\n' (wrap_current_body_line text (row, col)).1).length ∧
      (wrap_current_body_line text (row, col)).2.2 ≤
        ((splitChar '\n' (wrap_current_body_line text (row, col)).1).getD
          (wrap_current_body_line text (row, col)).2.1 []).length) ∧
    ((action_toggle_signoff text (row, col) so).1.2.1 <
        (splitChar '\n' (action_toggle_signoff text (row, col) so).1.1).length ∧
      (action_toggle_signoff text (row, col) so).1.2.2 ≤
        ((splitChar '\n' (action_toggle_signoff text (row, col) so).1.1).getD
          (action_toggle_signoff text (row, col) so).1.2.1 []).length) := by
  constructor
  · by_cases hc : row < 2 ∨ (splitChar '\n' text).length ≤ row ∨
        ((splitChar '\n' text).getD row []).length ≤ BODY_MAX_LENGTH ∨
        (wrap_line ((splitChar '\n' text).getD row []) BODY_MAX_LENGTH).length ≤ 1
    · rw [(wrap_body_spec text row col).1 hc]
      exact ⟨hrow, hcol⟩
    · push_neg at hc
      obtain ⟨h1, h2, h3, h4⟩ := hc
      rw [(wrap_body_spec text row col).2 h1 h2 h3 h4]
      have hsplit := wrap_newLines_split text h2
      have htk : ((splitChar '\n' text).take row).length = row := by
        rw [List.length_take]
        omega
      have hlen : ((splitChar '\n' text).take row ++
          wrap_line ((splitChar '\n' text).getD row []) BODY_MAX_LENGTH ++
          (splitChar '\n' text).drop (row + 1)).length =
          row + (wrap_line ((splitChar '\n' text).getD row [])
            BODY_MAX_LENGTH).length + ((splitChar '\n' text).length - (row + 1)) := by
        rw [List.length_append, List.length_append, htk, List.length_drop]
      have hget0 := getD_middle ((splitChar '\n' text).take row)
        (wrap_line ((splitChar '\n' text).getD row []) BODY_MAX_LENGTH)
        ((splitChar '\n' text).drop (row + 1)) 0 (by omega)
      simp only [htk, Nat.add_zero] at hget0
      have hget1 := getD_middle ((splitChar '\n' text).take row)
        (wrap_line ((splitChar '\n' text).getD row []) BODY_MAX_LENGTH)
        ((splitChar '\n' text).drop (row + 1)) 1 (by omega)
      rw [htk] at hget1
      by_cases hcle : col ≤ ((wrap_line ((splitChar '\n' text).getD row [])
          BODY_MAX_LENGTH).getD 0 []).length
      · simp only [if_pos hcle, hsplit]
        refine ⟨by rw [hlen]; omega, ?_⟩
        rw [hget0]
        exact hcle
      · simp only [if_neg hcle]
        rw [hsplit]
        refine ⟨by rw [hlen]; omega, ?_⟩
        rw [hget1]
        exact Nat.min_le_right _ _
  · by_cases hso : truthy so = true
    · have hstate : action_toggle_signoff text (row, col) so =
          ((toggleText text (so.getD []),
            toggleCursor (toggleText text (so.getD [])) (row, col)), none) := by
        rw [action_toggle_signoff, if_pos hso]
      rw [hstate]
      dsimp only
      rw [toggleCursor]
      dsimp only
      have hpos : 0 < (splitChar '\n' (toggleText text (so.getD []))).length :=
        List.length_pos.mpr (splitChar_ne_nil _ _)
      refine ⟨?_, Nat.min_le_right _ _⟩
      have hle := Nat.min_le_right row
        ((splitChar '\n' (toggleText text (so.getD []))).length - 1)
      omega
    · rw [action_toggle_signoff, if_neg hso]
      exact ⟨hrow, hcol⟩

theorem C9_witness :
    (2 < (splitChar '\n'
        ("T\n\n".toList ++ List.replicate 70 'a' ++ [' '] ++ List.replicate 9 'b')).length ∧
      75 ≤ ((splitChar '\n'
        ("T\n\n".toList ++ List.replicate 70 'a' ++ [' '] ++
          List.replicate 9 'b')).getD 2 []).length) ∧
    (((wrap_current_body_line
          ("T\n\n".toList ++ List.replicate 70 'a' ++ [' '] ++ List.replicate 9 'b')
          (2, 75)).2.1 <
        (splitChar '\n' (wrap_current_body_line
          ("T\n\n".toList ++ List.replicate 70 'a' ++ [' '] ++ List.replicate 9 'b')
          (2, 75)).1).length ∧
      (wrap_current_body_line
          ("T\n\n".toList ++ List.replicate 70 'a' ++ [' '] ++ List.replicate 9 'b')
          (2, 75)).2.2 ≤
        ((splitChar '\n' (wrap_current_body_line
          ("T\n\n".toList ++ List.replicate 70 'a' ++ [' '] ++ List.replicate 9 'b')
          (2, 75)).1).getD
          (wrap_current_body_line
            ("T\n\n".toList ++ List.replicate 70 'a' ++ [' '] ++ List.replicate 9 'b')
            (2, 75)).2.1 []).length) ∧
    ((action_toggle_signoff
          ("T\n\n".toList ++ List.replicate 70 'a' ++ [' '] ++ List.replicate 9 'b')
          (2, 75) (some ("Signed-off-by: A <a@b>".toList))).1.2.1 <
        (splitChar '\n' (action_toggle_signoff
          ("T\n\n".toList ++ List.replicate 70 'a' ++ [' '] ++ List.replicate 9 'b')
          (2, 75) (some ("Signed-off-by: A <a@b>".toList))).1.1).length ∧
      (action_toggle_signoff
          ("T\n\n".toList ++ List.replicate 70 'a' ++ [' '] ++ List.replicate 9 'b')
          (2, 75) (some ("Signed-off-by: A <a@b>".toList))).1.2.2 ≤
        ((splitChar '\n' (action_toggle_signoff
          ("T\n\n".toList ++ List.replicate 70 'a' ++ [' '] ++ List.replicate 9 'b')
          (2, 75) (some ("Signed-off-by: A <a@b>".toList))).1.1).getD
          (action_toggle_signoff
            ("T\n\n".toList ++ List.replicate 70 'a' ++ [' '] ++ List.replicate 9 'b')
            (2, 75) (some ("Signed-off-by: A <a@b>".toList))).1.2.1 []).length)) :=
  ⟨⟨by decide, by decide⟩,
    C9_cursor_stays_valid
      ("T\n\n".toList ++ List.replicate 70 'a' ++ [' '] ++ List.replicate 9 'b') 2 75
      (some ("Signed-off-by: A <a@b>".toList)) (by decide) (by decide)⟩

/-! ## Bounds on wrapper output (C2) -/

/-- The trailing run of spaces of an output segment (segments acquire
such runs from the `current_line += " "` branch of the loop). -/
def dropTrailingSpaces (s : Str) : Str := (s.reverse.dropWhile (· = ' ')).reverse

theorem dropTrailingSpaces_append_space (s : Str) :
    dropTrailingSpaces (s ++ [' ']) = dropTrailingSpaces s := by
  simp [dropTrailingSpaces, List.dropWhile_cons]

theorem dropTrailingSpaces_length_le (s : Str) :
    (dropTrailingSpaces s).length ≤ s.length := by
  rw [dropTrailingSpaces]
  have h := (List.dropWhile_sublist (fun c => c = ' ') :
    List.Sublist (s.reverse.dropWhile (fun c => c = ' ')) s.reverse).length_le
  simpa using h

theorem mem_of_mem_dropTrailingSpaces {s : Str} {c : Char}
    (h : c ∈ dropTrailingSpaces s) : c ∈ s := by
  rw [dropTrailingSpaces, List.mem_reverse] at h
  exact List.mem_reverse.mp (List.Sublist.mem h (List.dropWhile_sublist _))

theorem wrapStep_bound {w : Nat} {st : List Str × Str} {word : Str}
    (h1 : ∀ x ∈ st.1, (dropTrailingSpaces x).length ≤ w ∨ ' ' ∉ dropTrailingSpaces x)
    (h2 : (dropTrailingSpaces st.2).length ≤ w ∨ ' ' ∉ dropTrailingSpaces st.2)
    (hw : ' ' ∉ word) :
    (∀ x ∈ (wrapStep w st word).1,
        (dropTrailingSpaces x).length ≤ w ∨ ' ' ∉ dropTrailingSpaces x) ∧
      ((dropTrailingSpaces (wrapStep w st word).2).length ≤ w ∨
        ' ' ∉ dropTrailingSpaces (wrapStep w st word).2) := by
  simp only [wrapStep]
  by_cases hword : word = []
  · rw [if_pos hword]
    by_cases hcur : st.2 = []
    · rw [if_pos hcur]; exact ⟨h1, h2⟩
    · rw [if_neg hcur]
      refine ⟨h1, ?_⟩
      rw [dropTrailingSpaces_append_space]
      exact h2
  · rw [if_neg hword]
    by_cases htl : (if st.2 = [] then word else pyStrip (st.2 ++ ' ' :: word)).length ≤ w
    · rw [if_pos htl]
      refine ⟨h1, Or.inl ?_⟩
      exact le_trans (dropTrailingSpaces_length_le _) htl
    · rw [if_neg htl]
      have hwd : ' ' ∉ dropTrailingSpaces word :=
        fun hm => hw (mem_of_mem_dropTrailingSpaces hm)
      by_cases hcur : st.2 = []
      · rw [if_pos hcur]; exact ⟨h1, Or.inr hwd⟩
      · rw [if_neg hcur]
        refine ⟨?_, Or.inr hwd⟩
        intro x hx
        rcases List.mem_append.mp hx with h3 | h3
        · exact h1 x h3
        · simp at h3; subst h3; exact h2

theorem wrapFold_bound (w : Nat) :
    ∀ (words : List Str), (∀ word ∈ words, ' ' ∉ word) →
    ∀ (st : List Str × Str),
      (∀ x ∈ st.1, (dropTrailingSpaces x).length ≤ w ∨ ' ' ∉ dropTrailingSpaces x) →
      ((dropTrailingSpaces st.2).length ≤ w ∨ ' ' ∉ dropTrailingSpaces st.2) →
      (∀ x ∈ (words.foldl (wrapStep w) st).1,
          (dropTrailingSpaces x).length ≤ w ∨ ' ' ∉ dropTrailingSpaces x) ∧
        ((dropTrailingSpaces (words.foldl (wrapStep w) st).2).length ≤ w ∨
          ' ' ∉ dropTrailingSpaces (words.foldl (wrapStep w) st).2) := by
  intro words
  induction words with
  | nil => intro _ st h1 h2; exact ⟨h1, h2⟩
  | cons word rest ih =>
    intro hwds st h1 h2
    rw [List.foldl_cons]
    have hstep := @wrapStep_bound w st word h1 h2 (hwds word (List.mem_cons_self word rest))
    exact ih (fun t ht => hwds t (List.mem_cons_of_mem _ ht)) _ hstep.1 hstep.2

/-- C2 (counterexample): with width 4, the input `"aa b "` is longer
than the width, yet its single output segment is the whole input: a
segment of length 5 > 4 that contains spaces, so it is not a single
space-free over-long word. -/
theorem C2_counterexample :
    wrap_line ("aa b ".toList) 4 = [("aa b ".toList)] ∧
      4 < (("aa b ".toList) : Str).length ∧ ' ' ∈ (("aa b ".toList) : Str) := by
  decide

/-- C2 (amended): every output segment of `wrap_line`, after removing
its trailing run of spaces, either has length at most the width or is
space-free (the single over-long–word case); segments may exceed the
width only by such a trailing space run. -/
theorem C2_wrap_bounds (line : Str) (w : Nat) :
    ∀ x ∈ wrap_line line w,
      (dropTrailingSpaces x).length ≤ w ∨ ' ' ∉ dropTrailingSpaces x := by
  intro x hx
  rw [wrap_line] at hx
  split at hx
  · simp at hx; subst hx
    exact Or.inl (by simp [dropTrailingSpaces])
  · split at hx
    · simp at hx; subst hx
      rename_i hle
      exact Or.inl (le_trans (dropTrailingSpaces_length_le _) hle)
    · have hwords : ∀ word ∈ splitChar ' ' line, ' ' ∉ word :=
        fun word hwd => not_sep_mem_of_mem_splitChar hwd
      have hfold := wrapFold_bound w (splitChar ' ' line) hwords ([], [])
        (by simp) (Or.inl (by simp [dropTrailingSpaces]))
      simp only at hx
      split at hx
      · simp at hx; subst hx
        exact Or.inl (by simp [dropTrailingSpaces])
      · rw [wrapCore, outFinal, wrapFold] at hx
        split at hx
        · exact hfold.1 x hx
        · rcases List.mem_append.mp hx with h3 | h3
          · exact hfold.1 x h3
          · simp at h3; subst h3; exact hfold.2

theorem C2_witness :
    (("The quick brown fox jumps over the lazy".toList) : Str) ∈
        wrap_line ("The quick brown fox jumps over the lazy dog and continues running".toList)
          40 ∧
      ((dropTrailingSpaces ("The quick brown fox jumps over the lazy".toList)).length ≤ 40 ∨
        ' ' ∉ dropTrailingSpaces ("The quick brown fox jumps over the lazy".toList)) :=
  ⟨by decide,
    C2_wrap_bounds
      ("The quick brown fox jumps over the lazy dog and continues running".toList) 40
      ("The quick brown fox jumps over the lazy".toList) (by decide)⟩

/-! ## Over-long words in wrapper output (C7) -/

theorem dropWhile_fix_head {p : Char → Bool} {c : Char} {t : Str}
    (h : List.dropWhile p (c :: t) = c :: t) : p c = false := by
  by_cases hc : p c = true
  · rw [List.dropWhile_cons, if_pos hc] at h
    have h2 := (List.dropWhile_sublist p : List.Sublist (t.dropWhile p) t).length_le
    rw [h] at h2
    simp only [List.length_cons] at h2
    omega
  · simpa using hc

theorem pyStrip_fix_parts {word : Str} (h : pyStrip word = word) :
    stripLeft word = word ∧ stripRight word = word := by
  have h1 : (stripLeft word).length ≤ word.length :=
    (List.dropWhile_sublist isWS).length_le
  have h2 : (stripRight (stripLeft word)).length ≤ (stripLeft word).length := by
    have h3 := (List.dropWhile_sublist isWS :
      List.Sublist ((stripLeft word).reverse.dropWhile isWS) (stripLeft word).reverse).length_le
    rw [stripRight]
    simpa using h3
  rw [pyStrip] at h
  have h4 := congrArg List.length h
  have h5 : (stripLeft word).length = word.length := by omega
  have hsl : stripLeft word = word :=
    (List.dropWhile_sublist isWS).eq_of_length h5
  exact ⟨hsl, by rwa [hsl] at h⟩

theorem stripLeft_append_fix {A Y : Str} (hA : stripLeft A = A) (hAne : A ≠ []) :
    stripLeft (A ++ Y) = A ++ Y := by
  cases A with
  | nil => exact absurd rfl hAne
  | cons c t =>
    have hc : isWS c = false := dropWhile_fix_head hA
    rw [stripLeft, List.cons_append, List.dropWhile_cons, if_neg (by simp [hc])]

theorem stripRight_fix_rev {A : Str} (hA : stripRight A = A) :
    List.dropWhile isWS A.reverse = A.reverse := by
  have h2 := congrArg List.reverse hA
  rw [stripRight] at h2
  simpa using h2

theorem stripRight_append_fix {X A : Str} (hA : stripRight A = A) (hAne : A ≠ []) :
    stripRight (X ++ A) = X ++ A := by
  have hrev : stripLeft A.reverse = A.reverse := stripRight_fix_rev hA
  have hrevne : A.reverse ≠ [] := by simpa using hAne
  rw [stripRight, List.reverse_append,
    show List.dropWhile isWS (A.reverse ++ X.reverse) = A.reverse ++ X.reverse from
      stripLeft_append_fix hrev hrevne]
  simp

theorem stripRight_append_of_fix {A Y : Str} (hA : stripRight A = A) :
    stripRight (A ++ Y) = A ++ stripRight Y := by
  have hrev : List.dropWhile isWS A.reverse = A.reverse := stripRight_fix_rev hA
  rw [stripRight, List.reverse_append, List.dropWhile_append]
  split
  · rename_i hemp
    have hY : stripRight Y = [] := by
      rw [stripRight]
      simp only [List.isEmpty_iff] at hemp
      rw [hemp]
      rfl
    rw [hrev, hY]
    simp
  · rw [List.reverse_append]
    simp [stripRight]

theorem pyStrip_word_suffix_length (cur : Str) {word : Str}
    (hfixL : stripLeft word = word) (hfixR : stripRight word = word) (hne : word ≠ []) :
    word.length ≤ (pyStrip (cur ++ ' ' :: word)).length := by
  rw [pyStrip, stripLeft, List.dropWhile_append]
  split
  · rw [List.dropWhile_cons, if_pos (by decide),
      show List.dropWhile isWS word = word from hfixL, hfixR]
  · rw [show (' ' :: word) = [' '] ++ word from rfl, ← List.append_assoc,
      stripRight_append_fix hfixR hne]
    simp only [List.length_append]
    omega

theorem wrapStep_fst (w : Nat) (st : List Str × Str) (word : Str) :
    (wrapStep w st word).1 = st.1 ∨ (wrapStep w st word).1 = st.1 ++ [st.2] := by
  simp only [wrapStep]
  by_cases hword : word = []
  · rw [if_pos hword]
    by_cases hcur : st.2 = []
    · rw [if_pos hcur]; exact Or.inl rfl
    · rw [if_neg hcur]; exact Or.inl rfl
  · rw [if_neg hword]
    by_cases htl : (if st.2 = [] then word else pyStrip (st.2 ++ ' ' :: word)).length ≤ w
    · rw [if_pos htl]; exact Or.inl rfl
    · rw [if_neg htl]
      by_cases hcur : st.2 = []
      · rw [if_pos hcur]; exact Or.inl rfl
      · rw [if_neg hcur]; exact Or.inr rfl

theorem mem_wrapFold_lines {w : Nat} {x : Str} :
    ∀ (words : List Str) (st : List Str × Str), x ∈ st.1 →
      x ∈ (words.foldl (wrapStep w) st).1 := by
  intro words
  induction words with
  | nil => intro st h; exact h
  | cons word rest ih =>
    intro st h
    rw [List.foldl_cons]
    refine ih _ ?_
    rcases wrapStep_fst w st word with h2 | h2
    · rw [h2]; exact h
    · rw [h2]; exact List.mem_append.mpr (Or.inl h)

theorem mem_outFinal_of_mem_fst {p : List Str × Str} {x : Str} (h : x ∈ p.1) :
    x ∈ outFinal p := by
  rw [outFinal]
  split
  · exact h
  · exact List.mem_append.mpr (Or.inl h)

theorem wrap_carry_overlong {w : Nat} {word : Str} (hlen : w < word.length)
    (hstrip : pyStrip word = word) :
    ∀ (words : List Str) (st : List Str × Str) (n : Nat),
      st.2 = word ++ List.replicate n ' ' →
      ∃ m, word ++ List.replicate m ' ' ∈ outFinal (words.foldl (wrapStep w) st) := by
  have hne : word ≠ [] := by
    intro h
    rw [h] at hlen
    simp at hlen
  have hfixL := (pyStrip_fix_parts hstrip).1
  have hfixR := (pyStrip_fix_parts hstrip).2
  intro words
  induction words with
  | nil =>
    intro st n hst
    have hst2 : st.2 ≠ [] := by rw [hst]; simp [hne]
    refine ⟨n, ?_⟩
    rw [List.foldl_nil, outFinal, if_neg hst2]
    exact List.mem_append.mpr (Or.inr (List.mem_singleton.mpr hst.symm))
  | cons t rest ih =>
    intro st n hst
    rw [List.foldl_cons]
    have hcur : st.2 ≠ [] := by rw [hst]; simp [hne]
    by_cases ht : t = []
    · subst ht
      have hstep : wrapStep w st [] = (st.1, st.2 ++ [' ']) := by
        simp [wrapStep, hcur]
      rw [hstep]
      refine ih (st.1, st.2 ++ [' ']) (n + 1) ?_
      dsimp only
      rw [hst, List.replicate_succ', ← List.append_assoc]
    · have hps : pyStrip (st.2 ++ ' ' :: t) =
          word ++ stripRight (List.replicate n ' ' ++ ' ' :: t) := by
        rw [hst, List.append_assoc, pyStrip,
          stripLeft_append_fix hfixL hne, stripRight_append_of_fix hfixR]
      have hlen2 : ¬ (pyStrip (st.2 ++ ' ' :: t)).length ≤ w := by
        rw [hps, List.length_append]
        omega
      have hstep : wrapStep w st t = (st.1 ++ [st.2], t) := by
        simp [wrapStep, ht, hcur, hlen2]
      rw [hstep]
      refine ⟨n, ?_⟩
      refine mem_outFinal_of_mem_fst (mem_wrapFold_lines rest _ ?_)
      dsimp only
      exact List.mem_append.mpr (Or.inr (List.mem_singleton.mpr hst.symm))

theorem wrap_emit_overlong {w : Nat} {word : Str} (hlen : w < word.length)
    (hstrip : pyStrip word = word) :
    ∀ (words : List Str), word ∈ words →
    ∀ (st : List Str × Str),
      ∃ m, word ++ List.replicate m ' ' ∈ outFinal (words.foldl (wrapStep w) st) := by
  have hne : word ≠ [] := by
    intro h
    rw [h] at hlen
    simp at hlen
  have hfixL := (pyStrip_fix_parts hstrip).1
  have hfixR := (pyStrip_fix_parts hstrip).2
  intro words
  induction words with
  | nil => intro h; simp at h
  | cons t rest ih =>
    intro hm st
    rw [List.foldl_cons]
    rcases List.mem_cons.mp hm with hm | hm
    · subst hm
      by_cases hcur : st.2 = []
      · have hstep : wrapStep w st word = (st.1, word) := by
          simp [wrapStep, hne, hcur, show ¬ word.length ≤ w from by omega]
        rw [hstep]
        exact wrap_carry_overlong hlen hstrip rest (st.1, word) 0 (by simp)
      · have hlen2 : ¬ (pyStrip (st.2 ++ ' ' :: word)).length ≤ w := by
          have h3 := pyStrip_word_suffix_length st.2 hfixL hfixR hne
          omega
        have hstep : wrapStep w st word = (st.1 ++ [st.2], word) := by
          simp [wrapStep, hne, hcur, hlen2]
        rw [hstep]
        exact wrap_carry_overlong hlen hstrip rest _ 0 (by simp)
    · exact ih hm _

/-- C7 (counterexample): a space-free word of 73 tabs exceeds width 72,
but `str.strip()` inside the loop eats it entirely, so it is never
emitted: the wrap of `"\t"*73 + " b"` is just `["b"]`. -/
theorem C7_counterexample :
    (List.replicate 73 '\t') ∈ splitChar ' ' (List.replicate 73 '\t' ++ [' ', 'b']) ∧
      72 < (List.replicate 73 '\t' : Str).length ∧
      wrap_line (List.replicate 73 '\t' ++ [' ', 'b']) 72 = [['b']] := by
  decide

/-- C7 (amended): every space-free word longer than the width that
carries no leading or trailing whitespace of its own (`strip`-stable)
is emitted unsplit and alone, as an output segment consisting of the
word possibly followed by a run of trailing spaces; and
`wrap_line` of one hundred `a` characters at width 72 is that word as
the single unbroken segment. -/
theorem C7_overlong_unsplit (line : Str) (w : Nat) (word : Str)
    (hmem : word ∈ splitChar ' ' line) (hlen : w < word.length)
    (hstrip : pyStrip word = word) :
    (∃ m, word ++ List.replicate m ' ' ∈ wrap_line line w) ∧
      wrap_line (List.replicate 100 'a') 72 = [List.replicate 100 'a'] := by
  refine ⟨?_, by decide⟩
  have hlinelen : w < line.length := lt_of_lt_of_le hlen (length_le_of_mem_splitChar hmem)
  have hlinene : line ≠ [] := by
    intro h
    rw [h] at hlinelen
    simp at hlinelen
  obtain ⟨m, hm⟩ := wrap_emit_overlong hlen hstrip (splitChar ' ' line) hmem ([], [])
  have hm2 : word ++ List.replicate m ' ' ∈ wrapCore w (splitChar ' ' line) := hm
  refine ⟨m, ?_⟩
  rw [wrap_line, if_neg hlinene, if_neg (by omega)]
  simp only
  split
  · rename_i hnil
    rw [hnil] at hm2
    simp at hm2
  · exact hm2

theorem C7_witness :
    (List.replicate 100 'a') ∈ splitChar ' ' (List.replicate 100 'a' ++ [' ', 'b']) ∧
      72 < (List.replicate 100 'a' : Str).length ∧
      pyStrip (List.replicate 100 'a') = List.replicate 100 'a' ∧
      ((∃ m, List.replicate 100 'a' ++ List.replicate m ' ' ∈
          wrap_line (List.replicate 100 'a' ++ [' ', 'b']) 72) ∧
        wrap_line (List.replicate 100 'a') 72 = [List.replicate 100 'a']) :=
  ⟨by decide, by decide, by decide,
    C7_overlong_unsplit (List.replicate 100 'a' ++ [' ', 'b']) 72 (List.replicate 100 'a')
      (by decide) (by decide) (by decide)⟩

/-! ## Reconstruction machinery for greedy packing (C3, C8)

On inputs whose only whitespace is the plain space, the `str.strip()`
inside the loop is the identity and the loop's state reconstructs the
input: these lemmas capture that. -/

/-- The string contributed by the remaining tokens: each token is
preceded by the single space that separated it. -/
def reconRest : List Str → Str
  | [] => []
  | t :: ts => ' ' :: (t ++ reconRest ts)

/-- The first word of a rebuilt line. -/
def leadWord (s : Str) : Str := s.takeWhile (· ≠ ' ')

theorem joinWith_cons_reconRest (t : Str) :
    ∀ (ts : List Str), joinWith ' ' (t :: ts) = t ++ reconRest ts := by
  intro ts
  induction ts generalizing t with
  | nil => simp [joinWith, reconRest]
  | cons u us ih =>
    rw [joinWith_cons ' ' t (by simp), ih u, reconRest]

theorem joinWith_glue (sep : Char) :
    ∀ (A : List Str) (x y : Str),
      joinWith sep (A ++ [x, y]) = joinWith sep (A ++ [x ++ sep :: y]) := by
  intro A
  induction A with
  | nil => intro x y; simp [joinWith]
  | cons a A' ih =>
    intro x y
    rw [List.cons_append, List.cons_append,
      joinWith_cons sep a (by simp), joinWith_cons sep a (by simp), ih x y]

theorem headD_append_of_ne_nil {cur : Str} (h : cur ≠ []) (X : Str) (d : Char) :
    (cur ++ X).headD d = cur.headD d := by
  cases cur with
  | nil => exact absurd rfl h
  | cons c t => rfl

theorem solid_headD {t : Str} (hne : t ≠ []) (hsolid : ∀ c ∈ t, isWS c = false) :
    isWS (t.headD ' ') = false := by
  cases t with
  | nil => exact absurd rfl hne
  | cons c rest => exact hsolid c (List.mem_cons_self c rest)

theorem solid_no_space {t : Str} (hsolid : ∀ c ∈ t, isWS c = false) : ' ' ∉ t := by
  intro h
  have := hsolid ' ' h
  simp [isWS] at this

theorem stripRight_of_solid {t : Str} (hsolid : ∀ c ∈ t, isWS c = false) :
    stripRight t = t := by
  cases h : t.reverse with
  | nil =>
    have : t = [] := by simpa using congrArg List.reverse h
    simp [this, stripRight]
  | cons c rest =>
    have hc : isWS c = false := by
      refine hsolid c ?_
      rw [← List.mem_reverse, h]
      exact List.mem_cons_self c rest
    rw [stripRight, h, List.dropWhile_cons, if_neg (by simp [hc]), ← h]
    simp

theorem pyStrip_solid_append {cur t : Str} (hcur : cur ≠ [])
    (hhead : isWS (cur.headD ' ') = false)
    (htne : t ≠ []) (hsolid : ∀ c ∈ t, isWS c = false) :
    pyStrip (cur ++ ' ' :: t) = cur ++ ' ' :: t := by
  have hsl : stripLeft (cur ++ ' ' :: t) = cur ++ ' ' :: t := by
    cases cur with
    | nil => exact absurd rfl hcur
    | cons c rest =>
      have hc : isWS c = false := hhead
      rw [stripLeft, List.cons_append, List.dropWhile_cons, if_neg (by simp [hc])]
  have hsr : stripRight (cur ++ ' ' :: t) = cur ++ ' ' :: t := by
    rw [show cur ++ ' ' :: t = (cur ++ [' ']) ++ t by simp]
    exact stripRight_append_fix (stripRight_of_solid hsolid) htne
  rw [pyStrip, hsl, hsr]

theorem leadWord_append_space (X : Str) :
    ∀ (cur : Str), leadWord (cur ++ ' ' :: X) = leadWord cur := by
  intro cur
  induction cur with
  | nil =>
    rw [leadWord, leadWord, List.nil_append, List.takeWhile_cons, if_neg (by simp)]
    rfl
  | cons c rest ih =>
    by_cases hc : c = ' '
    · rw [leadWord, leadWord, List.cons_append, List.takeWhile_cons, List.takeWhile_cons,
        if_neg (by simp [hc]), if_neg (by simp [hc])]
    · rw [leadWord, leadWord, List.cons_append, List.takeWhile_cons, List.takeWhile_cons,
        if_pos (by simp [hc]), if_pos (by simp [hc])]
      rw [leadWord, leadWord] at ih
      rw [ih]

theorem leadWord_of_spacefree {t : Str} (h : ' ' ∉ t) : leadWord t = t := by
  induction t with
  | nil => rfl
  | cons c rest ih =>
    have hc : c ≠ ' ' := fun hc => h (hc ▸ List.mem_cons_self c rest)
    have hrest : ' ' ∉ rest := fun hm => h (List.mem_cons_of_mem c hm)
    have ih2 := ih hrest
    rw [leadWord] at ih2
    rw [leadWord, List.takeWhile_cons, if_pos (by simp [hc]), ih2]

theorem mem_joinWith {sep : Char} :
    ∀ {ls : List Str} {c : Char}, c ∈ joinWith sep ls → c = sep ∨ ∃ l ∈ ls, c ∈ l := by
  intro ls
  induction ls with
  | nil => intro c h; simp [joinWith] at h
  | cons x xs ih =>
    intro c h
    cases xs with
    | nil => exact Or.inr ⟨x, List.mem_cons_self x [], h⟩
    | cons y ys =>
      rw [joinWith_cons sep x (by simp)] at h
      rcases List.mem_append.mp h with h2 | h2
      · exact Or.inr ⟨x, List.mem_cons_self x (y :: ys), h2⟩
      · rcases List.mem_cons.mp h2 with h3 | h3
        · exact Or.inl h3
        · rcases ih h3 with h4 | ⟨l, hl, hcl⟩
          · exact Or.inl h4
          · exact Or.inr ⟨l, List.mem_cons_of_mem x hl, hcl⟩

theorem wrapStep_empty_cur {w : Nat} {lines : List Str} {t : Str} (ht : t ≠ []) :
    wrapStep w (lines, ([] : Str)) t = (lines, t) := by
  simp [wrapStep, ht]

theorem wrapFold_drop_leading_empties (w : Nat) :
    ∀ (T : List Str) (lines : List Str),
      T.foldl (wrapStep w) (lines, []) =
        (T.dropWhile (fun t => t.isEmpty)).foldl (wrapStep w) (lines, []) := by
  intro T
  induction T with
  | nil => intro lines; rfl
  | cons t ts ih =>
    intro lines
    by_cases ht : t.isEmpty
    · have hte : t = [] := by simpa using ht
      subst hte
      rw [List.foldl_cons, show wrapStep w (lines, ([] : Str)) [] = (lines, []) from by
          simp [wrapStep],
        List.dropWhile_cons, if_pos (by simp)]
      exact ih lines
    · rw [List.dropWhile_cons, if_neg (by simpa using ht)]

/-- The loop state reconstructs the input: joining the final output
with single spaces yields the current line followed by the remaining
tokens (valid when the only whitespace around is the space itself, so
that the `str.strip()` in the loop is the identity). -/
theorem wrapFold_recon (w : Nat) :
    ∀ (T : List Str), (∀ t ∈ T, ∀ c ∈ t, isWS c = false) →
    ∀ (lines : List Str) (cur : Str), cur ≠ [] → isWS (cur.headD ' ') = false →
      joinWith ' ' (outFinal (T.foldl (wrapStep w) (lines, cur))) =
        joinWith ' ' (lines ++ [cur ++ reconRest T]) := by
  intro T
  induction T with
  | nil =>
    intro _ lines cur hne _
    rw [List.foldl_nil, outFinal, if_neg hne, reconRest, List.append_nil]
  | cons t ts ih =>
    intro hsolid lines cur hne hhead
    have hsolidts : ∀ u ∈ ts, ∀ c ∈ u, isWS c = false :=
      fun u hu => hsolid u (List.mem_cons_of_mem t hu)
    rw [List.foldl_cons]
    by_cases ht : t = []
    · subst ht
      have hstep : wrapStep w (lines, cur) [] = (lines, cur ++ [' ']) := by
        simp [wrapStep, hne]
      rw [hstep,
        ih hsolidts lines (cur ++ [' ']) (by simp [hne])
          (by rw [headD_append_of_ne_nil hne]; exact hhead)]
      have hl : (cur ++ [' ']) ++ reconRest ts = cur ++ reconRest ([] :: ts) := by
        rw [reconRest, List.append_assoc]
        rfl
      rw [hl]
    · have htsolid : ∀ c ∈ t, isWS c = false := hsolid t (List.mem_cons_self t ts)
      have hps := pyStrip_solid_append hne hhead ht htsolid
      by_cases htl : (pyStrip (cur ++ ' ' :: t)).length ≤ w
      · have hstep : wrapStep w (lines, cur) t = (lines, cur ++ ' ' :: t) := by
          simp only [wrapStep]
          rw [if_neg ht, if_neg hne, hps, if_pos (hps ▸ htl)]
        rw [hstep,
          ih hsolidts lines (cur ++ ' ' :: t) (by simp)
            (by rw [headD_append_of_ne_nil hne]; exact hhead)]
        have hl : (cur ++ ' ' :: t) ++ reconRest ts = cur ++ reconRest (t :: ts) := by
          rw [reconRest]
          simp
        rw [hl]
      · have hstep : wrapStep w (lines, cur) t = (lines ++ [cur], t) := by
          simp only [wrapStep]
          rw [if_neg ht, if_neg hne, hps, if_neg (hps ▸ htl), if_neg hne]
        rw [hstep, ih hsolidts (lines ++ [cur]) t ht (solid_headD ht htsolid)]
        have hl : (lines ++ [cur]) ++ [t ++ reconRest ts] =
            lines ++ [cur, t ++ reconRest ts] := by
          simp
        rw [hl, joinWith_glue]
        have hl2 : cur ++ ' ' :: (t ++ reconRest ts) = cur ++ reconRest (t :: ts) := by
          rw [reconRest]
        rw [hl2]

/-- When the reconstructed remainder fits within the width, the loop
never flushes: it just extends the current line to the whole rest. -/
theorem wrapFold_no_flush (w : Nat) :
    ∀ (T : List Str), (∀ t ∈ T, ∀ c ∈ t, isWS c = false) →
    ∀ (lines : List Str) (cur : Str), cur ≠ [] → isWS (cur.headD ' ') = false →
      (cur ++ reconRest T).length ≤ w →
      T.foldl (wrapStep w) (lines, cur) = (lines, cur ++ reconRest T) := by
  intro T
  induction T with
  | nil =>
    intro _ lines cur _ _ _
    rw [List.foldl_nil, reconRest, List.append_nil]
  | cons t ts ih =>
    intro hsolid lines cur hne hhead hlen
    have hsolidts : ∀ u ∈ ts, ∀ c ∈ u, isWS c = false :=
      fun u hu => hsolid u (List.mem_cons_of_mem t hu)
    rw [List.foldl_cons]
    by_cases ht : t = []
    · subst ht
      have hstep : wrapStep w (lines, cur) [] = (lines, cur ++ [' ']) := by
        simp [wrapStep, hne]
      have hl : (cur ++ [' ']) ++ reconRest ts = cur ++ reconRest ([] :: ts) := by
        rw [reconRest, List.append_assoc]
        rfl
      rw [hstep,
        ih hsolidts lines (cur ++ [' ']) (by simp [hne])
          (by rw [headD_append_of_ne_nil hne]; exact hhead) (by rw [hl]; exact hlen),
        hl]
    · have htsolid : ∀ c ∈ t, isWS c = false := hsolid t (List.mem_cons_self t ts)
      have hps := pyStrip_solid_append hne hhead ht htsolid
      have hlen1 : (cur ++ reconRest (t :: ts)).length =
          cur.length + 1 + t.length + (reconRest ts).length := by
        rw [reconRest]
        simp [List.length_append]
        omega
      have hts : (cur ++ ' ' :: t).length ≤ w := by
        have h2 : (cur ++ ' ' :: t).length = cur.length + 1 + t.length := by
          simp [List.length_append]
          omega
        omega
      have hstep : wrapStep w (lines, cur) t = (lines, cur ++ ' ' :: t) := by
        simp only [wrapStep]
        rw [if_neg ht, if_neg hne, hps, if_pos hts]
      have hl : (cur ++ ' ' :: t) ++ reconRest ts = cur ++ reconRest (t :: ts) := by
        rw [reconRest]
        simp
      rw [hstep,
        ih hsolidts lines (cur ++ ' ' :: t) (by simp)
          (by rw [headD_append_of_ne_nil hne]; exact hhead) (by rw [hl]; exact hlen),
        hl]

/-- The greedy-split relation between adjacent output lines: the line
plus the separating space plus the next line's first word would have
exceeded the width (which is why the split happened there). -/
def packR (w : Nat) (x y : Str) : Prop := w < x.length + 1 + (leadWord y).length

theorem chain_concat_congr {w : Nat} {A : List Str} {x y : Str}
    (h : List.Chain' (packR w) (A ++ [x])) (hlw : leadWord y = leadWord x) :
    List.Chain' (packR w) (A ++ [y]) := by
  rw [List.chain'_append] at h ⊢
  refine ⟨h.1, List.chain'_singleton y, ?_⟩
  intro a ha b hb
  simp only [List.head?_cons, Option.mem_def, Option.some.injEq] at hb
  subst hb
  have h2 := h.2.2 a ha x (by simp)
  rw [packR] at h2 ⊢
  rw [hlw]
  exact h2

theorem chain_concat_push {w : Nat} {A : List Str} {x y : Str}
    (h : List.Chain' (packR w) (A ++ [x])) (hR : packR w x y) :
    List.Chain' (packR w) ((A ++ [x]) ++ [y]) := by
  rw [show List.Chain' (packR w) ((A ++ [x]) ++ [y]) ↔ _ from List.chain'_append]
  refine ⟨h, List.chain'_singleton y, ?_⟩
  intro a ha b hb
  simp only [List.head?_cons, Option.mem_def, Option.some.injEq] at hb
  subst hb
  rw [List.getLast?_concat, Option.mem_def, Option.some.injEq] at ha
  subst ha
  exact hR

/-- Greedy boundaries: every adjacent pair of output lines of the fold
is related by `packR` (the next word did not fit). -/
theorem wrapFold_chain (w : Nat) :
    ∀ (T : List Str), (∀ t ∈ T, ∀ c ∈ t, isWS c = false) →
    ∀ (lines : List Str) (cur : Str), cur ≠ [] → isWS (cur.headD ' ') = false →
      List.Chain' (packR w) (lines ++ [cur]) →
      List.Chain' (packR w) (outFinal (T.foldl (wrapStep w) (lines, cur))) := by
  intro T
  induction T with
  | nil =>
    intro _ lines cur hne _ hchain
    rw [List.foldl_nil, outFinal, if_neg hne]
    exact hchain
  | cons t ts ih =>
    intro hsolid lines cur hne hhead hchain
    have hsolidts : ∀ u ∈ ts, ∀ c ∈ u, isWS c = false :=
      fun u hu => hsolid u (List.mem_cons_of_mem t hu)
    rw [List.foldl_cons]
    by_cases ht : t = []
    · subst ht
      have hstep : wrapStep w (lines, cur) [] = (lines, cur ++ [' ']) := by
        simp [wrapStep, hne]
      rw [hstep]
      refine ih hsolidts lines (cur ++ [' ']) (by simp [hne])
        (by rw [headD_append_of_ne_nil hne]; exact hhead) ?_
      exact chain_concat_congr hchain
        (by rw [show cur ++ [' '] = cur ++ ' ' :: ([] : Str) from rfl, leadWord_append_space])
    · have htsolid : ∀ c ∈ t, isWS c = false := hsolid t (List.mem_cons_self t ts)
      have hps := pyStrip_solid_append hne hhead ht htsolid
      by_cases htl : (pyStrip (cur ++ ' ' :: t)).length ≤ w
      · have hstep : wrapStep w (lines, cur) t = (lines, cur ++ ' ' :: t) := by
          simp only [wrapStep]
          rw [if_neg ht, if_neg hne, hps, if_pos (hps ▸ htl)]
        rw [hstep]
        refine ih hsolidts lines (cur ++ ' ' :: t) (by simp)
          (by rw [headD_append_of_ne_nil hne]; exact hhead) ?_
        exact chain_concat_congr hchain (leadWord_append_space t cur)
      · have hstep : wrapStep w (lines, cur) t = (lines ++ [cur], t) := by
          simp only [wrapStep]
          rw [if_neg ht, if_neg hne, hps, if_neg (hps ▸ htl), if_neg hne]
        rw [hstep]
        refine ih hsolidts (lines ++ [cur]) t ht (solid_headD ht htsolid) ?_
        refine chain_concat_push hchain ?_
        rw [packR, leadWord_of_spacefree (solid_no_space htsolid)]
        have h2 := hps ▸ htl
        have h3 : (cur ++ ' ' :: t).length = cur.length + 1 + t.length := by
          simp [List.length_append]
          omega
        omega

theorem tokens_solid {s : Str} (htab : ∀ c ∈ s, isWS c = true → c = ' ') :
    ∀ t ∈ splitChar ' ' s, ∀ c ∈ t, isWS c = false := by
  intro t ht c hc
  by_cases hws : isWS c = true
  · have hcs : c ∈ s := List.Sublist.mem hc (sublist_of_mem_splitChar ht)
    have hceq := htab c hcs hws
    exact absurd (hceq ▸ hc) (not_sep_mem_of_mem_splitChar ht)
  · simpa using hws

theorem joinWith_dropWhile_empties :
    ∀ (T : List Str), (∀ t ∈ T, ' ' ∉ t) →
      joinWith ' ' (T.dropWhile (fun t => t.isEmpty)) =
        (joinWith ' ' T).dropWhile (· = ' ') := by
  intro T
  induction T with
  | nil => intro _; rfl
  | cons t ts ih =>
    intro hsp
    by_cases ht : t = []
    · subst ht
      cases ts with
      | nil => rfl
      | cons u us =>
        have hLHS : List.dropWhile (fun t : Str => t.isEmpty) ([] :: u :: us) =
            List.dropWhile (fun t : Str => t.isEmpty) (u :: us) := by
          rw [List.dropWhile_cons, if_pos (by simp)]
        have hRHS : joinWith ' ' (([] : Str) :: u :: us) = ' ' :: joinWith ' ' (u :: us) := by
          rw [joinWith_cons ' ' [] (by simp), List.nil_append]
        have hRHS2 : List.dropWhile (fun c : Char => c = ' ') (' ' :: joinWith ' ' (u :: us)) =
            List.dropWhile (fun c : Char => c = ' ') (joinWith ' ' (u :: us)) := by
          rw [List.dropWhile_cons, if_pos (by simp)]
        rw [hLHS, hRHS, hRHS2]
        exact ih (fun v hv => hsp v (List.mem_cons_of_mem _ hv))
    · rw [List.dropWhile_cons, if_neg (by simpa using ht)]
      cases t with
      | nil => exact absurd rfl ht
      | cons c crest =>
        have hc : c ≠ ' ' := fun hcc =>
          hsp (c :: crest) (List.mem_cons_self _ _) (hcc ▸ List.mem_cons_self c crest)
        rw [show joinWith ' ' ((c :: crest) :: ts) = c :: (crest ++ reconRest ts) from by
            rw [joinWith_cons_reconRest]; rfl,
          List.dropWhile_cons, if_neg (by simp [hc])]

/-- Shared machinery for C3 and C8: what `wrap_line` computes on the
long-line path when the leading empty tokens are discarded and the
first real token is `t1`. -/
theorem wrap_line_machinery {s : Str} {w : Nat}
    (htab : ∀ c ∈ s, isWS c = true → c = ' ') (hse : s ≠ []) (hsl : ¬ s.length ≤ w)
    {t1 : Str} {ts : List Str}
    (hT : (splitChar ' ' s).dropWhile (fun t => t.isEmpty) = t1 :: ts) :
    t1 ≠ [] ∧
      (∀ u ∈ t1 :: ts, ∀ c ∈ u, isWS c = false) ∧
      outFinal (ts.foldl (wrapStep w) ([], t1)) ≠ [] ∧
      wrap_line s w = outFinal (ts.foldl (wrapStep w) ([], t1)) ∧
      joinWith ' ' (wrap_line s w) = joinWith ' ' (t1 :: ts) := by
  have hsolid := tokens_solid htab
  have ht1ne : t1 ≠ [] := by
    have h2 := dropWhile_head_false hT
    simpa using h2
  have hmem : ∀ u ∈ t1 :: ts, u ∈ splitChar ' ' s := by
    intro u hu
    rw [← hT] at hu
    exact List.Sublist.mem hu (List.dropWhile_sublist _)
  have hsolid1 : ∀ u ∈ t1 :: ts, ∀ c ∈ u, isWS c = false :=
    fun u hu => hsolid u (hmem u hu)
  have hsolidts : ∀ u ∈ ts, ∀ c ∈ u, isWS c = false :=
    fun u hu => hsolid1 u (List.mem_cons_of_mem _ hu)
  have hh := solid_headD ht1ne (hsolid1 t1 (List.mem_cons_self _ _))
  have hfold : wrapCore w (splitChar ' ' s) = outFinal (ts.foldl (wrapStep w) ([], t1)) := by
    rw [wrapCore, wrapFold, wrapFold_drop_leading_empties, hT, List.foldl_cons,
      wrapStep_empty_cur ht1ne]
  have hrecon := wrapFold_recon w ts hsolidts [] t1 ht1ne hh
  have hrecon2 : joinWith ' ' (outFinal (ts.foldl (wrapStep w) ([], t1))) =
      joinWith ' ' (t1 :: ts) := by
    rw [hrecon, List.nil_append, joinWith_cons_reconRest t1 ts]
    rfl
  have hne2 : outFinal (ts.foldl (wrapStep w) ([], t1)) ≠ [] := by
    intro h
    rw [h, joinWith_cons_reconRest] at hrecon2
    exact ht1ne (List.append_eq_nil.mp hrecon2.symm).1
  have hwl : wrap_line s w = outFinal (ts.foldl (wrapStep w) ([], t1)) := by
    rw [wrap_line, if_neg hse, if_neg hsl]
    simp only
    rw [hfold, if_neg hne2]
  refine ⟨ht1ne, hsolid1, hne2, hwl, ?_⟩
  rw [hwl]
  exact hrecon2

theorem wrap_line_all_spaces {s : Str} {w : Nat} (hse : s ≠ []) (hsl : ¬ s.length ≤ w)
    (hT : (splitChar ' ' s).dropWhile (fun t => t.isEmpty) = []) :
    wrap_line s w = [[]] := by
  rw [wrap_line, if_neg hse, if_neg hsl]
  simp only
  rw [wrapCore, wrapFold, wrapFold_drop_leading_empties, hT]
  rfl

/-- C3 (counterexample): with width 6, `"aa  bb cccc"` wraps to
`["aa  bb", "cccc"]`: the run of two spaces contributes both of its
spaces to the rebuilt first line (witnessed by the empty token in its
split), contradicting the claim that a run contributes at most one
separator space per rebuilt line. -/
theorem C3_counterexample :
    wrap_line ("aa  bb cccc".toList) 6 = [("aa  bb".toList), ("cccc".toList)] ∧
      splitChar ' ' ("aa  bb".toList) = [("aa".toList), ([] : Str), ("bb".toList)] := by
  decide

/-- C3 (amended): on an over-long line whose only whitespace is the
space character, space runs are preserved, not collapsed: joining the
output segments with single spaces reconstructs the input exactly
(up to dropped leading spaces); and the packing is greedy: each
adjacent pair of output segments is split precisely because the first
segment, the separating space, and the next segment's first word
would have exceeded the width. -/
theorem C3_run_preservation_greedy (s : Str) (w : Nat)
    (htab : ∀ c ∈ s, isWS c = true → c = ' ') (hlen : w < s.length) :
    joinWith ' ' (wrap_line s w) = s.dropWhile (· = ' ') ∧
      List.Chain' (packR w) (wrap_line s w) := by
  have hse : s ≠ [] := by
    intro h
    rw [h] at hlen
    simp at hlen
  have hsl : ¬ s.length ≤ w := by omega
  have hspfree : ∀ t ∈ splitChar ' ' s, ' ' ∉ t :=
    fun t ht => not_sep_mem_of_mem_splitChar ht
  have hdw : joinWith ' ' ((splitChar ' ' s).dropWhile (fun t => t.isEmpty)) =
      s.dropWhile (· = ' ') := by
    rw [joinWith_dropWhile_empties _ hspfree, joinWith_splitChar]
  cases hT : (splitChar ' ' s).dropWhile (fun t => t.isEmpty) with
  | nil =>
    rw [wrap_line_all_spaces hse hsl hT]
    constructor
    · rw [← hdw, hT]
      rfl
    · exact List.chain'_singleton _
  | cons t1 ts =>
    obtain ⟨ht1ne, hsolid1, _, hwl, hjoin⟩ := wrap_line_machinery htab hse hsl hT
    constructor
    · rw [hjoin, ← hdw, hT]
    · rw [hwl]
      refine wrapFold_chain w ts (fun u hu => hsolid1 u (List.mem_cons_of_mem _ hu)) [] t1
        ht1ne (solid_headD ht1ne (hsolid1 t1 (List.mem_cons_self _ _))) ?_
      simp [List.chain'_singleton]

theorem C3_witness :
    (∀ c ∈ ("The quick brown fox jumps over the lazy dog and continues running".toList),
        isWS c = true → c = ' ') ∧
      40 < (("The quick brown fox jumps over the lazy dog and continues running".toList) :
        Str).length ∧
      (joinWith ' '
          (wrap_line ("The quick brown fox jumps over the lazy dog and continues running".toList)
            40) =
          ("The quick brown fox jumps over the lazy dog and continues running".toList).dropWhile
            (· = ' ') ∧
        List.Chain' (packR 40)
          (wrap_line ("The quick brown fox jumps over the lazy dog and continues running".toList)
            40)) :=
  ⟨by decide, by decide,
    C3_run_preservation_greedy
      ("The quick brown fox jumps over the lazy dog and continues running".toList) 40
      (by decide) (by decide)⟩

/-- C8 (counterexample): with a tab in the input, rewrapping the join
of the output changes the result even though no word exceeds the
width: `wrap("pppp \tab x", 7) = ["pppp", "ab x"]` (the leading tab is
eaten by `str.strip()`), whose join rewraps to `["pppp ab", "x"]`. -/
theorem C8_counterexample :
    (∀ t ∈ splitChar ' ' ("pppp \tab x".toList), t.length ≤ 7) ∧
      wrap_line (joinWith ' ' (wrap_line ("pppp \tab x".toList) 7)) 7 ≠
        wrap_line ("pppp \tab x".toList) 7 := by
  decide

/-- C8 (amended): wrapping is idempotent across a space-join when the
input's only whitespace is the space character: rewrapping the
space-join of the output reproduces the output exactly (the claim's
no-word-exceeds-width hypothesis is kept although the property holds
without it on such inputs). -/
theorem C8_wrap_idempotent (s : Str) (w : Nat)
    (htab : ∀ c ∈ s, isWS c = true → c = ' ')
    (hwords : ∀ t ∈ splitChar ' ' s, t.length ≤ w) :
    wrap_line (joinWith ' ' (wrap_line s w)) w = wrap_line s w := by
  by_cases hsl : s.length ≤ w
  · by_cases hse : s = []
    · subst hse
      rfl
    · have h1 : wrap_line s w = [s] := by rw [wrap_line, if_neg hse, if_pos hsl]
      rw [h1, show joinWith ' ' [s] = s from rfl, h1]
  · have hse : s ≠ [] := by
      intro h
      rw [h] at hsl
      simp at hsl
    cases hT : (splitChar ' ' s).dropWhile (fun t => t.isEmpty) with
    | nil =>
      rw [wrap_line_all_spaces hse hsl hT,
        show joinWith ' ' [([] : Str)] = [] from rfl,
        wrap_line, if_pos rfl]
    | cons t1 ts =>
      obtain ⟨ht1ne, hsolid1, hne2, hwl, hjoin⟩ := wrap_line_machinery htab hse hsl hT
      rw [hjoin]
      have hsolidts : ∀ u ∈ ts, ∀ c ∈ u, isWS c = false :=
        fun u hu => hsolid1 u (List.mem_cons_of_mem _ hu)
      have hh := solid_headD ht1ne (hsolid1 t1 (List.mem_cons_self _ _))
      have hspfree1 : ∀ u ∈ t1 :: ts, ' ' ∉ u :=
        fun u hu => solid_no_space (hsolid1 u hu)
      have hjr : joinWith ' ' (t1 :: ts) = t1 ++ reconRest ts :=
        joinWith_cons_reconRest t1 ts
      have hcurne : t1 ++ reconRest ts ≠ [] := by
        intro h
        exact ht1ne (List.append_eq_nil.mp h).1
      have hsne : joinWith ' ' (t1 :: ts) ≠ [] := by
        rw [hjr]
        exact hcurne
      by_cases h2 : (joinWith ' ' (t1 :: ts)).length ≤ w
      · have hNF := wrapFold_no_flush w ts hsolidts [] t1 ht1ne hh
          (by rw [← hjr]; exact h2)
        have hOval : wrap_line s w = [t1 ++ reconRest ts] := by
          rw [hwl, hNF, outFinal, if_neg hcurne]
          rfl
        rw [hOval, hjr, wrap_line, if_neg hcurne, if_pos (by rw [← hjr]; exact h2)]
      · have hsplit2 : splitChar ' ' (joinWith ' ' (t1 :: ts)) = t1 :: ts :=
          splitChar_joinWith (by simp) hspfree1
        have hwl2 : wrap_line (joinWith ' ' (t1 :: ts)) w =
            outFinal (ts.foldl (wrapStep w) ([], t1)) := by
          rw [wrap_line, if_neg hsne, if_neg h2]
          simp only
          rw [hsplit2, wrapCore, wrapFold, List.foldl_cons, wrapStep_empty_cur ht1ne,
            if_neg hne2]
        rw [hwl2, hwl]

theorem C8_witness :
    (∀ c ∈ ("The quick brown fox jumps over the lazy dog and continues running".toList),
        isWS c = true → c = ' ') ∧
      (∀ t ∈ splitChar ' '
          ("The quick brown fox jumps over the lazy dog and continues running".toList),
        t.length ≤ 40) ∧
      wrap_line (joinWith ' '
          (wrap_line ("The quick brown fox jumps over the lazy dog and continues running".toList)
            40)) 40 =
        wrap_line ("The quick brown fox jumps over the lazy dog and continues running".toList)
          40 :=
  ⟨by decide, by decide,
    C8_wrap_idempotent
      ("The quick brown fox jumps over the lazy dog and continues running".toList) 40
      (by decide) (by decide)⟩

end CommitEditor
